import Mathlib

/-!
Verification of the magog procedural map generator (`world/src/map.rs`,
`world/src/worldgen.rs`) against its natural-language specification.

The Rust code is shallowly embedded: the sparse `HashMap`-backed grid becomes
an association list (so that hash-iteration-order nondeterminism is visible as
the list order, and `HashSet` enumeration becomes an explicit "pick oracle"),
machine integers become `Int`/`Nat`, fallible code returns `Option`/`Except`,
and loops become fuel-indexed structural recursion (fuel exhaustion maps to
`none`, which the Rust loop can never return).

Helpers that live in the `calx` support crate (hex geometry, `Dir6`), the
`terrain.rs` tag table and the PRNG are not part of the provided sources;
they are modelled from the spec, pinned where possible by the offset tables
appearing verbatim in `map.rs`.  Each such definition carries a note.
-/

namespace Magog

/-- Integer 2D vector on the hex grid (`CellVector` = `euclid::Vector2D<i32>`;
machine `i32` arithmetic is modelled by `Int`). -/
structure V2 where
  x : Int
  y : Int
deriving DecidableEq, Repr

instance : Add V2 := ⟨fun a b => ⟨a.x + b.x, a.y + b.y⟩⟩

def V2.sub (a b : V2) : V2 := ⟨a.x - b.x, a.y - b.y⟩

theorem V2.add_def (a b : V2) : a + b = ⟨a.x + b.x, a.y + b.y⟩ := rfl

theorem V2.ext_xy : ∀ {a b : V2}, a.x = b.x → a.y = b.y → a = b
  | ⟨_, _⟩, ⟨_, _⟩, rfl, rfl => rfl

/-- Modelled from the spec (calx `Dir6` is not under src): the six hex
directions.  The vectors are pinned by the side-wall offset tables written out
in `Map::can_tunnel` in `map.rs`. -/
inductive Dir6
  | north
  | northeast
  | southeast
  | south
  | southwest
  | northwest
deriving DecidableEq, Repr

/-- Direction vectors of the axial hex coordinate system used by magog. -/
def Dir6.vec : Dir6 → V2
  | .north => ⟨-1, -1⟩
  | .northeast => ⟨0, -1⟩
  | .southeast => ⟨1, 0⟩
  | .south => ⟨1, 1⟩
  | .southwest => ⟨0, 1⟩
  | .northwest => ⟨-1, 0⟩

/-- Modelled from the spec (calx is not under src): the fake-isometric axes
are the four axis-aligned directions; north and south are the "third axis"
that `can_tunnel` treats with the stricter four-cell side check. -/
def Dir6.is_fake_isometric : Dir6 → Bool
  | .north => false
  | .south => false
  | _ => true

/-- Iteration order of `Dir6::iter()`, following the direction array order. -/
def dir6List : List Dir6 :=
  [.north, .northeast, .southeast, .south, .southwest, .northwest]

def hexDirs : List V2 := dir6List.map Dir6.vec

/-- Modelled from the spec (calx is not under src): the six hex neighbors of a
cell. -/
def hex_neighbors (p : V2) : List V2 := hexDirs.map (fun d => p + d)

/-- Modelled from the spec (calx is not under src): the four axis-aligned
("fake-isometric") neighbors used by the border adjacency check. -/
def taxicab_neighbors (p : V2) : List V2 :=
  [(⟨1, 0⟩ : V2), ⟨-1, 0⟩, ⟨0, 1⟩, ⟨0, -1⟩].map (fun d => p + d)

/-- Modelled from the spec (calx `HexGeom::hex_dist` is not under src):
hex distance of a vector in axial coordinates. -/
def hex_dist (v : V2) : Int :=
  if v.x.sign = v.y.sign then max v.x.natAbs v.y.natAbs
  else v.x.natAbs + v.y.natAbs

/-- Modelled from the spec (`terrain.rs` is not under src): the terrain tags
referenced by the map generator. -/
inductive Terrain
  | Empty
  | Ground
  | Grass
  | Water
  | Tree
  | Wall
  | Rock
  | Door
  | Entrance
  | Exit
  | Gate
  | Pillar
deriving DecidableEq, Repr

/-- Modelled from the spec (`terrain.rs` is not under src): wall-like tags and
the undefined `Empty` tag block walking, floor-like tags do not. -/
def Terrain.blocks_walk : Terrain → Bool
  | .Empty | .Wall | .Rock | .Tree | .Pillar => true
  | _ => false

/-- Vault cell classification (`VaultKind` in `map.rs`). -/
inductive VaultKind
  | Interior
  | Border
deriving DecidableEq, Repr

/-- Cell type for static map data (`MapCell` in `map.rs`).  Entity spawns are
identified by their form name. -/
structure MapCell where
  terrain : Terrain
  spawns : List String
  can_dig : Bool
  vault_kind : Option VaultKind
deriving DecidableEq, Repr

def MapCell.default : MapCell :=
  { terrain := .Empty, spawns := [], can_dig := true, vault_kind := none }

def MapCell.new_terrain (t : Terrain) : MapCell :=
  { MapCell.default with terrain := t }

def MapCell.new_bumper : MapCell := MapCell.default

def MapCell.is_walkable (c : MapCell) : Bool := !c.terrain.blocks_walk

def MapCell.is_border (c : MapCell) : Bool := c.vault_kind = some .Border

def MapCell.is_interior (c : MapCell) : Bool := c.vault_kind = some .Interior

def MapCell.is_bumper (c : MapCell) : Bool :=
  c.terrain = Terrain.Empty && c.can_dig

def MapCell.to_door (c : MapCell) : MapCell := { c with terrain := .Door }

def MapCell.undiggable (c : MapCell) : MapCell := { c with can_dig := false }

def MapCell.border (c : MapCell) : MapCell := { c with vault_kind := some .Border }

def MapCell.interior (c : MapCell) : MapCell := { c with vault_kind := some .Interior }

/-- Representation of a game level during procedural map generation (`Map` in
`map.rs`).  The backing `HashMap<CellVector, MapCell>` is embedded as an
association list; the list order stands for the unspecified hash iteration
order. -/
structure Map where
  contents : List (V2 × MapCell)
deriving DecidableEq, Repr

def Map.get (m : Map) (p : V2) : Option MapCell :=
  (m.contents.find? (fun e => decide (e.1 = p))).map (·.2)

def Map.contains (m : Map) (p : V2) : Bool := (m.get p).isSome

def Map.insert (m : Map) (p : V2) (c : MapCell) : Map :=
  ⟨(p, c) :: m.contents.filter (fun e => decide (e.1 ≠ p))⟩

def Map.new : Map := ⟨[]⟩

def Map.keys (m : Map) : List V2 := m.contents.map (·.1)

/-- The backing hash map has each coordinate at most once; association lists
representing it satisfy this invariant. -/
def Map.NodupKeys (m : Map) : Prop := m.keys.Nodup

instance (m : Map) : Decidable m.NodupKeys := by
  unfold Map.NodupKeys
  infer_instance

theorem Map.get_insert_self (m : Map) (p : V2) (c : MapCell) :
    (m.insert p c).get p = some c := by
  simp [Map.insert, Map.get]

theorem Map.get_insert_ne (m : Map) (p q : V2) (c : MapCell) (h : q ≠ p) :
    (m.insert p c).get q = m.get q := by
  simp only [Map.insert, Map.get, List.find?]
  have : (decide (p = q)) = false := by
    simp only [decide_eq_false_iff_not]
    exact fun e => h e.symm
  simp only [this]
  induction m.contents with
  | nil => simp
  | cons e rest ih =>
    by_cases he : e.1 = p
    · have : (decide (e.1 ≠ p)) = false := by simp [he]
      simp only [List.filter, this]
      have : (decide (e.1 = q)) = false := by
        simp only [decide_eq_false_iff_not]
        intro hq
        exact h (hq ▸ he ▸ rfl)
      simpa [List.find?, this] using ih
    · have : (decide (e.1 ≠ p)) = true := by simp [he]
      simp only [List.filter, this]
      by_cases hq : e.1 = q
      · simp [List.find?, hq]
      · have hq' : (decide (e.1 = q)) = false := by simp [hq]
        simp only [List.find?, hq']
        exact ih

theorem Map.contains_iff (m : Map) (p : V2) :
    m.contains p = true ↔ ∃ c, m.get p = some c := by
  simp [Map.contains, Option.isSome_iff_exists]

/-- The stable total order `(x, then y)` that `map.rs` sorts query results by
(`sort_by_key(|v| (v.x, v.y))`). -/
def keyLe (a b : V2) : Prop := a.x < b.x ∨ (a.x = b.x ∧ a.y ≤ b.y)

instance : DecidableRel keyLe := fun a b => by
  unfold keyLe
  infer_instance

instance : IsTotal V2 keyLe := ⟨by
  intro a b
  unfold keyLe
  omega⟩

instance : IsTrans V2 keyLe := ⟨by
  intro a b c
  unfold keyLe
  omega⟩

instance : IsAntisymm V2 keyLe := ⟨by
  intro a b hab hba
  unfold keyLe at hab hba
  exact V2.ext_xy (by omega) (by omega)⟩

/-- Lexicographic order on point lists, matching `Vec<(i32, i32)>::sort` used
by `separate_regions` on the per-component sorted tuple vectors. -/
def listLeB : List V2 → List V2 → Bool
  | [], _ => true
  | _ :: _, [] => false
  | a :: as_, b :: bs =>
    if a = b then listLeB as_ bs
    else decide (a.x < b.x ∨ (a.x = b.x ∧ a.y < b.y))

def listLe (l1 l2 : List V2) : Prop := listLeB l1 l2 = true

instance : DecidableRel listLe := fun l1 l2 => by
  unfold listLe
  infer_instance

theorem listLe_total : ∀ l1 l2 : List V2, listLe l1 l2 ∨ listLe l2 l1 := by
  intro l1
  induction l1 with
  | nil => intro l2; left; rfl
  | cons a as_ ih =>
    intro l2
    cases l2 with
    | nil => right; rfl
    | cons b bs =>
      by_cases hab : a = b
      · subst hab
        rcases ih bs with h | h
        · left; simpa [listLe, listLeB] using h
        · right; simpa [listLe, listLeB] using h
      · have hba : b ≠ a := fun e => hab e.symm
        have hxy : (a.x < b.x ∨ (a.x = b.x ∧ a.y < b.y)) ∨
            (b.x < a.x ∨ (b.x = a.x ∧ b.y < a.y)) := by
          by_contra hc
          push_neg at hc
          exact hab (V2.ext_xy (by omega) (by omega))
        rcases hxy with h | h
        · left; simp [listLe, listLeB, hab, h]
        · right; simp [listLe, listLeB, hba, h]

theorem listLe_antisymm : ∀ l1 l2 : List V2, listLe l1 l2 → listLe l2 l1 → l1 = l2 := by
  intro l1
  induction l1 with
  | nil =>
    intro l2 _ h21
    cases l2 with
    | nil => rfl
    | cons b bs => simp [listLe, listLeB] at h21
  | cons a as_ ih =>
    intro l2 h12 h21
    cases l2 with
    | nil => simp [listLe, listLeB] at h12
    | cons b bs =>
      by_cases hab : a = b
      · subst hab
        simp only [listLe, listLeB, if_pos rfl] at h12 h21
        exact congrArg (a :: ·) (ih bs h12 h21)
      · have hba : b ≠ a := fun e => hab e.symm
        simp only [listLe, listLeB, if_neg hab, decide_eq_true_eq] at h12
        simp only [listLe, listLeB, if_neg hba, decide_eq_true_eq] at h21
        exact absurd (V2.ext_xy (by omega) (by omega)) hab

theorem listLe_trans : ∀ l1 l2 l3 : List V2, listLe l1 l2 → listLe l2 l3 → listLe l1 l3 := by
  intro l1
  induction l1 with
  | nil => intro l2 l3 _ _; rfl
  | cons a as_ ih =>
    intro l2 l3 h12 h23
    cases l2 with
    | nil => simp [listLe, listLeB] at h12
    | cons b bs =>
      cases l3 with
      | nil => simp [listLe, listLeB] at h23
      | cons c cs =>
        by_cases hab : a = b
        · subst hab
          by_cases hac : a = c
          · subst hac
            simp only [listLe, listLeB, if_pos rfl] at h12 h23 ⊢
            exact ih bs cs h12 h23
          · simp only [listLe, listLeB, if_pos rfl] at h12
            simpa [listLe, listLeB, hac] using h23
        · by_cases hbc : b = c
          · subst hbc
            simp only [listLe, listLeB, if_neg hab] at h12
            simpa [listLe, listLeB, hab] using h12
          · simp only [listLe, listLeB, if_neg hab, decide_eq_true_eq] at h12
            simp only [listLe, listLeB, if_neg hbc, decide_eq_true_eq] at h23
            have hac : a ≠ c := fun e => by
              subst e
              exact absurd (V2.ext_xy (by omega) (by omega)) hab
            simp only [listLe, listLeB, if_neg hac, decide_eq_true_eq]
            omega

instance : IsTotal (List V2) listLe := ⟨listLe_total⟩

instance : IsTrans (List V2) listLe := ⟨fun a b c => listLe_trans a b c⟩

instance : IsAntisymm (List V2) listLe := ⟨fun a b => listLe_antisymm a b⟩

/-- Return positions from the map that satisfy the given predicate, in stable
`(x, then y)` order (`Map::find_positions`). -/
def Map.find_positions (m : Map) (pred : V2 → MapCell → Bool) : List V2 :=
  (m.contents.filterMap (fun e => if pred e.1 e.2 then some e.1 else none)).insertionSort keyLe

def Map.entrances (m : Map) : List V2 :=
  m.find_positions (fun _ c => c.terrain = Terrain.Entrance)

def Map.exits (m : Map) : List V2 :=
  m.find_positions (fun _ c => c.terrain = Terrain.Exit)

def Map.open_ground (m : Map) : List V2 :=
  m.find_positions (fun _ c => c.is_walkable && !c.is_border)

/-- Validity of placing one vault cell `(p, c)` of `room` with the map offset
`offset`; mirrors one iteration of the loop body of
`Map::is_valid_placement`. -/
def Map.cell_ok (m : Map) (offset : V2) (room : Map) (p : V2) (c : MapCell) : Bool :=
  match m.get (offset + p) with
  | none =>
    -- Trying to place walkable terrain or a boundary shim outside the domain
    -- is a no-go; anything else off-map is ignored.
    !(c.is_walkable || c.is_bumper)
  | some existing =>
    if existing.is_interior then false
    else if c.is_interior && !existing.can_dig then false
    else
      !c.is_border ||
        ((if existing.is_border then decide (existing.terrain = c.terrain)
          else (taxicab_neighbors p).all (fun q =>
            !(!(room.contains q) &&
              ((m.get (offset + q)).map MapCell.is_border).getD false))) &&
         (!(existing.is_walkable && c.can_dig) ||
           (hex_neighbors p).all (fun q =>
             !(((room.get q).map (fun c2 => c2.is_border && c2.can_dig)).getD false &&
               ((m.get (offset + q)).map MapCell.is_walkable).getD false))))

/-- Return whether a room can be placed on this map at the given position
(`Map::is_valid_placement`).  The result is the conjunction of the per-cell
checks; the hash iteration order of the loop cannot affect it. -/
def Map.is_valid_placement (m : Map) (offset : V2) (room : Map) : Bool :=
  room.contents.all (fun e => m.cell_ok offset room e.1 e.2)

/-- The cell actually written when stamping vault cell `c` over an existing
cell (`none` when the target position is undefined); mirrors the loop body of
`Map::place_room_at`. -/
def stampCell (existing : Option MapCell) (c : MapCell) : MapCell :=
  match existing with
  | none => c
  | some ex =>
    let c1 := if ex.is_walkable && c.is_border && c.can_dig then c.to_door else c
    if !ex.can_dig then { c1 with can_dig := false } else c1

/-- Body of the stamping loop of `Map::place_room_at` for one vault cell:
bumpers write nothing, other cells are stamped over the existing cell. -/
def placeStep (offset : V2) (acc : Map) (e : V2 × MapCell) : Map :=
  if e.2.is_bumper then acc
  else acc.insert (e.1 + offset) (stampCell (acc.get (e.1 + offset)) e.2)

/-- Place a room on the map at the given position (`Map::place_room_at`). -/
def Map.place_room_at (m : Map) (offset : V2) (room : Map) : Map :=
  room.contents.foldl (placeStep offset) m

/-- Side-wall offsets checked by `Map::can_tunnel`, verbatim from the match
table in `map.rs`. -/
def sideOffsets : Dir6 → List V2
  | .north => [⟨-1, 0⟩, ⟨0, -1⟩, ⟨-2, -1⟩, ⟨-1, -2⟩]
  | .northeast => [⟨-1, -1⟩, ⟨1, -1⟩]
  | .southeast => [⟨1, -1⟩, ⟨1, 1⟩]
  | .south => [⟨1, 0⟩, ⟨0, 1⟩, ⟨2, 1⟩, ⟨1, 2⟩]
  | .southwest => [⟨-1, 1⟩, ⟨1, 1⟩]
  | .northwest => [⟨-1, -1⟩, ⟨-1, 1⟩]

/-- Return whether a tunnel can be dug in `pos + dir` from `pos`
(`Map::can_tunnel`). -/
def Map.can_tunnel (m : Map) (pos : V2) (dir : Dir6) : Bool :=
  let target := pos + dir.vec
  if ((m.get target).map MapCell.is_walkable).getD false then
    -- Moving through open space, all is good.
    true
  else if ((m.get target).map (fun c =>
      !c.can_dig || decide (c.vault_kind = some VaultKind.Interior))).getD true then
    -- Target cell is undiggable wall, untraversable vault interior or outside
    -- the map.
    false
  else if (sideOffsets dir).any (fun v =>
      ((m.get (pos + v)).map MapCell.is_walkable).getD false) then
    -- Breaching a wall on the side.
    false
  else if ((m.get target).map MapCell.is_border).getD false &&
      (!dir.is_fake_isometric ||
        (hex_neighbors target).any (fun q =>
          ((m.get q).map (fun c => c.is_border && c.is_walkable)).getD false)) then
    false
  else if ((m.get pos).map MapCell.is_border).getD false && !dir.is_fake_isometric then
    false
  else
    true

/-- Dig a cell of tunnel in a given position (`Map::dig`). -/
def Map.dig (m : Map) (pos : V2) : Map :=
  match m.get pos with
  | none => m
  | some existing =>
    if existing.is_walkable || existing.is_interior then m
    else if existing.is_border then m.insert pos existing.to_door
    else m.insert pos (MapCell.new_terrain .Ground)

/-- Return if the cell is an on-map vault-exterior cell
(`Map::is_vault_exterior`). -/
def Map.is_vault_exterior (m : Map) (pos : V2) : Bool :=
  ((m.get pos).map (fun c => c.vault_kind.isNone)).getD false

/-- Return if the set of points forms a vault interior bubble
(`Map::is_interior_bubble`). -/
def Map.is_interior_bubble (m : Map) (points : List V2) : Bool :=
  points.all (fun p =>
    !(m.is_vault_exterior p) &&
      (hex_neighbors p).all (fun pe =>
        !(m.is_vault_exterior pe) &&
          ((m.get pe).map (fun c => !c.can_dig)).getD true))

/-- Sorted listing of a multiset of points by `(x, then y)`, by insertion
sort; well-defined because the order is antisymmetric. -/
def msort (s : Multiset V2) : List V2 :=
  Quotient.liftOn s (fun l => l.insertionSort keyLe) (fun l1 l2 h =>
    List.eq_of_perm_of_sorted
      ((List.perm_insertionSort keyLe l1).trans
        (h.trans (List.perm_insertionSort keyLe l2).symm))
      (List.sorted_insertionSort keyLe l1) (List.sorted_insertionSort keyLe l2))

/-- Sorted listing of a finite point set by `(x, then y)`. -/
def fsort (s : Finset V2) : List V2 := msort s.val

theorem fsort_coe (s : Finset V2) : (fsort s : Multiset V2) = s.val := by
  unfold fsort msort
  induction s.val using Quotient.inductionOn with
  | h l => exact Quot.sound (List.perm_insertionSort keyLe l)

theorem fsort_sorted (s : Finset V2) : (fsort s).Sorted keyLe := by
  unfold fsort msort
  induction s.val using Quotient.inductionOn with
  | h l => exact List.sorted_insertionSort keyLe l

theorem fsort_eq_sort (s : Finset V2) : fsort s = s.sort keyLe := by
  refine List.eq_of_perm_of_sorted ?_ (fsort_sorted s) (Finset.sort_sorted keyLe s)
  apply Multiset.coe_eq_coe.1
  rw [fsort_coe, Finset.sort_eq]

/-- Choice oracle standing for `HashSet` iteration: at each enumeration step
the Rust code takes an arbitrary element of the current set
(`set.iter().next()`).  The `Nat` argument is a global step counter, so any
concrete run of the hash-based code is one such oracle. -/
def Pick := Nat → Finset V2 → V2

/-- The oracle returns a member of every nonempty set, as `iter().next()`
does. -/
def ValidPick (pick : Pick) : Prop := ∀ n s, s.Nonempty → pick n s ∈ s

/-- Canonical valid oracle: the `(x, then y)`-least element. -/
def pickMin : Pick := fun _ s => (fsort s).headD ⟨0, 0⟩

/-- The hex neighbors of `pos` still present in the undiscovered point set:
the points moved from `points` to the edge set in one `flood_fill`
iteration. -/
def nsOf (points : Finset V2) (pos : V2) : Finset V2 :=
  ((hex_neighbors pos).filter (fun q => decide (q ∈ points))).toFinset

/-- Loop of `flood_fill` in `map.rs`: grab a point of the edge set, move its
undiscovered neighbors from `points` to the edge, accumulate into `ret`.
Fuel-indexed; `points.card + edge.card + 1` fuel always suffices. -/
def floodFillAux (pick : Pick) : Nat → Nat → Finset V2 → Finset V2 → Finset V2 →
    Finset V2 × Nat
  | n, 0, _, _, ret => (ret, n)
  | n, fuel + 1, points, edge, ret =>
    if edge = ∅ then (ret, n)
    else
      let pos := pick n edge
      if pos ∈ edge then
        floodFillAux pick (n + 1) fuel (points \ nsOf points pos)
          (edge.erase pos ∪ nsOf points pos) (insert pos ret)
      else (ret, n)

/-- Flood fill the connected subset of `points` containing `seed`
(`flood_fill` in `map.rs`).  Returns the subset and the advanced oracle
counter. -/
def floodFill (pick : Pick) (n : Nat) (points : Finset V2) (seed : V2) :
    Finset V2 × Nat :=
  if seed ∈ points then
    floodFillAux pick (n + 1) (points.card + 1) (points.erase seed) {seed} ∅
  else (∅, n)

/-- Loop of `separate_regions`: pull a seed out of the remaining point set,
flood-fill its component, sort it, repeat on the rest. -/
def sepAux (pick : Pick) : Nat → Nat → Finset V2 → List (List V2) × Nat
  | n, 0, _ => ([], n)
  | n, fuel + 1, points =>
    if points = ∅ then ([], n)
    else
      let seed := pick n points
      let res := floodFill pick (n + 1) points seed
      let sortedSub := fsort res.1
      let rest := sepAux pick res.2 fuel (points \ res.1)
      (sortedSub :: rest.1, rest.2)

/-- Convert a point cloud into subsets of connected points, in stable order
(`separate_regions` in `map.rs`): each component is sorted by `(x, then y)`
and the component list is sorted lexicographically. -/
def separate_regions (pick : Pick) (n : Nat) (points : Finset V2) :
    List (List V2) × Nat :=
  let res := sepAux pick n (points.card + 1) points
  (res.1.insertionSort listLe, res.2)

/-- Hex adjacency of two cells. -/
def adj (a b : V2) : Prop := b ∈ hex_neighbors a

instance : ∀ a b, Decidable (adj a b) := fun a b => by
  unfold adj
  infer_instance

/-- Hex connectivity within the point set `s`: a chain of hex-adjacent points
of `s` leads from `a` to `b`. -/
def reaches (s : Finset V2) (a b : V2) : Prop :=
  Relation.ReflTransGen (fun x y => adj x y ∧ y ∈ s) a b

/-- Canonical connected component of `q` inside `s`, computed with the
canonical oracle. -/
def canonComp (s : Finset V2) (q : V2) : Finset V2 := (floodFill pickMin 0 s q).1

/-- Canonical sorted point list of the component of `q` inside `s`. -/
def canonList (s : Finset V2) (q : V2) : List V2 :=
  fsort (canonComp s q)

/-- The set of walkable coordinates of a map, as collected into a `HashSet` by
`join_disjoint_regions`. -/
def walkable_floors (m : Map) : Finset V2 :=
  (m.contents.filterMap (fun e => if e.2.is_walkable then some e.1 else none)).toFinset

/-- Sort key of the outer A* node selection in `find_tunnel`: hex distance to
the target. -/
def tunnelLe (p2 : V2) (a b : V2) : Prop :=
  hex_dist (a.sub p2) ≤ hex_dist (b.sub p2)

instance (p2 : V2) : DecidableRel (tunnelLe p2) := fun a b => by
  unfold tunnelLe
  infer_instance

def olookup (o : List (V2 × Map)) (p : V2) : Option Map :=
  (o.find? (fun e => decide (e.1 = p))).map (·.2)

def oinsert (o : List (V2 × Map)) (p : V2) (m : Map) : List (V2 × Map) :=
  (p, m) :: o.filter (fun e => decide (e.1 ≠ p))

def oremove (o : List (V2 × Map)) (p : V2) : List (V2 × Map) :=
  o.filter (fun e => decide (e.1 ≠ p))

/-- Expansion step of the A* search: try all six directions from the chosen
node, digging into cloned snapshots; short-circuit with the finished map when
the target is reached. -/
def expandDirs (map : Map) (p p2 : V2) (closed : Finset V2)
    (o : List (V2 × Map)) : Sum Map (List (V2 × Map)) :=
  dir6List.foldl (fun st d =>
    match st with
    | .inl f => .inl f
    | .inr acc =>
      let q := p + d.vec
      if q ∈ closed then .inr acc
      else if map.can_tunnel p d then
        if q = p2 then .inl (map.dig q) else .inr (oinsert acc q (map.dig q))
      else .inr acc) (.inr o)

/-- Main loop of `find_tunnel`: the open set maps coordinates to whole map
snapshots; node selection sorts coordinates by `(x, y)` and then stably by hex
distance to the target. -/
def find_tunnel_aux (p2 : V2) : Nat → List (V2 × Map) → Finset V2 → Option Map
  | 0, _, _ => none
  | fuel + 1, opn, closed =>
    if opn.isEmpty then none
    else
      let pts := ((opn.map (·.1)).insertionSort keyLe).insertionSort (tunnelLe p2)
      let p := pts.headD ⟨0, 0⟩
      let map := (olookup opn p).getD Map.new
      match expandDirs map p p2 closed opn with
      | .inl found => some found
      | .inr o2 => find_tunnel_aux p2 fuel (oremove o2 p) (insert p closed)

/-- Try to find a tunnel from `p1` to `p2` (`Map::find_tunnel`), returning a
clone of the map with the tunnel drawn. -/
def Map.find_tunnel (m : Map) (p1 p2 : V2) (fuel : Nat) : Option Map :=
  find_tunnel_aux p2 fuel [(p1, m.dig p1)] ∅

/-- One PRNG draw from the modelled random stream. -/
def sampleList (l : List V2) (d : Nat) : V2 := l.getD (d % l.length) ⟨0, 0⟩

/-- Join disconnected regions on the map with tunnels
(`Map::join_disjoint_regions`).  The RNG is modelled as a stream of raw
draws; `tfuel` bounds each inner A* search and `fuel` the outer loop, whose
exhaustion stands for divergence. -/
def Map.join_disjoint_regions (pick : Pick) (tfuel : Nat) :
    Nat → Map → List Nat → Nat → Option Map
  | 0, _, _, _ => none
  | fuel + 1, ret, rng, n =>
    let res := separate_regions pick n (walkable_floors ret)
    let regions := res.1.filter (fun r => !ret.is_interior_bubble r)
    if regions.length < 2 then some ret
    else
      let r0 := regions.headD []
      let r1 := (regions.drop 1).headD []
      let p1 := sampleList r0 (rng.headD 0)
      let p2 := sampleList r1 (rng.tail.headD 0)
      match ret.find_tunnel p1 p2 tfuel with
      | some connected =>
        Map.join_disjoint_regions pick tfuel fuel connected rng.tail.tail res.2
      | none => none

/-- Parse error of `new_vault` raised through the `die!` macro: the formatted
message names the offending character (and nothing else). -/
inductive VaultError
  | unknownGlyph (c : Char)
deriving DecidableEq, Repr

/-- The glyphs accepted by the vault grammar of `new_vault`. -/
def vaultGlyphs : List Char := [' ', '_', '%', '#', '.', '>', '<', '~', 'I', '+', 'a']

/-- Whether a hex neighbor of `pos` is missing from the parsed template, which
is what classifies wall and door glyphs as `Border` in `new_vault`. -/
def isBorderPos (prefab : List (V2 × Char)) (pos : V2) : Bool :=
  !(hex_neighbors pos).all (fun q => prefab.any (fun e => decide (e.1 = q)))

/-- Cell produced for one glyph of the template (`none` for the skipped blank
glyph), mirroring the match in `Map::new_vault`. -/
def glyphCell (prefab : List (V2 × Char)) (pos : V2) (c : Char) :
    Except VaultError (Option MapCell) :=
  let base : MapCell := { MapCell.default with vault_kind := some .Interior }
  if c = ' ' then .ok none
  else if c = '_' then .ok (some MapCell.new_bumper)
  else if c = '%' then .ok (some { base with can_dig := false })
  else if c = '#' then
    .ok (some (if isBorderPos prefab pos then
      { base with terrain := .Wall, can_dig := false, vault_kind := some .Border }
    else { base with terrain := .Wall }))
  else if c = '.' then .ok (some { base with terrain := .Ground })
  else if c = '>' then .ok (some { base with terrain := .Exit })
  else if c = '<' then .ok (some { base with terrain := .Entrance })
  else if c = '~' then .ok (some { base with terrain := .Water })
  else if c = 'I' then .ok (some { base with terrain := .Pillar })
  else if c = '+' then
    .ok (some (if isBorderPos prefab pos then
      { base with terrain := .Wall, vault_kind := some .Border }
    else { base with terrain := .Door }))
  else if c = 'a' then .ok (some { base with terrain := .Ground, spawns := ["dreg"] })
  else .error (.unknownGlyph c)

def newVaultAux (prefab : List (V2 × Char)) :
    List (V2 × Char) → Map → Except VaultError Map
  | [], acc => .ok acc
  | e :: rest, acc =>
    match glyphCell prefab e.1 e.2 with
    | .error err => .error err
    | .ok none => newVaultAux prefab rest acc
    | .ok (some cell) => newVaultAux prefab rest (acc.insert e.1 cell)

/-- Build a prefab vault map from a parsed ASCII template
(`Map::new_vault`).  The calx `DenseTextMap` text-to-coordinate parsing is not
under src; the function is stated over its output, the coordinate-to-glyph
table. -/
def new_vault (prefab : List (V2 × Char)) : Except VaultError Map :=
  newVaultAux prefab prefab Map.new

/-- Integer range `[lo, hi)` as a list, for the rectangular room loops. -/
def intRange (lo hi : Int) : List Int :=
  (List.range (hi - lo).toNat).map (fun i => lo + i)

/-- Build a random rectangular room (`Map::new_plain_room`).  The PRNG is
modelled as a stream of raw draws; `gen_range(2, 8)` becomes
`2 + draw % 6`. -/
def new_plain_room (rng : List Nat) : Map :=
  let w : Int := 2 + (rng.headD 0 % 6 : Nat)
  let h : Int := 2 + (rng.tail.headD 0 % 6 : Nat)
  (intRange (-1) (h + 1)).foldl (fun acc y =>
    (intRange (-1) (w + 1)).foldl (fun acc2 x =>
      let x_wall := x = -1 ∨ x = w
      let y_wall := y = -1 ∨ y = h
      let p : V2 := ⟨x, y⟩
      if x_wall ∨ y_wall then
        if ¬(x_wall ∧ y_wall) then acc2.insert p ((MapCell.new_terrain .Wall).border)
        else acc2.insert p (((MapCell.new_terrain .Wall).undiggable).border)
      else acc2.insert p ((MapCell.new_terrain .Ground).interior)) acc) Map.new

section RegionProofs

theorem adj_iff {a b : V2} : adj a b ↔
    ((b.x - a.x = -1 ∧ b.y - a.y = -1) ∨ (b.x - a.x = 0 ∧ b.y - a.y = -1) ∨
     (b.x - a.x = 1 ∧ b.y - a.y = 0) ∨ (b.x - a.x = 1 ∧ b.y - a.y = 1) ∨
     (b.x - a.x = 0 ∧ b.y - a.y = 1) ∨ (b.x - a.x = -1 ∧ b.y - a.y = 0)) := by
  simp only [adj, hex_neighbors, hexDirs, dir6List, Dir6.vec, List.map_cons, List.map_nil,
    List.mem_cons, List.not_mem_nil, or_false, V2.add_def]
  constructor
  · rintro (rfl | rfl | rfl | rfl | rfl | rfl) <;> simp
  · rintro (⟨h1, h2⟩ | ⟨h1, h2⟩ | ⟨h1, h2⟩ | ⟨h1, h2⟩ | ⟨h1, h2⟩ | ⟨h1, h2⟩)
    · exact Or.inl (V2.ext_xy (show b.x = a.x + -1 by omega) (show b.y = a.y + -1 by omega))
    · exact Or.inr (Or.inl (V2.ext_xy (show b.x = a.x + 0 by omega)
        (show b.y = a.y + -1 by omega)))
    · exact Or.inr (Or.inr (Or.inl (V2.ext_xy (show b.x = a.x + 1 by omega)
        (show b.y = a.y + 0 by omega))))
    · exact Or.inr (Or.inr (Or.inr (Or.inl (V2.ext_xy (show b.x = a.x + 1 by omega)
        (show b.y = a.y + 1 by omega)))))
    · exact Or.inr (Or.inr (Or.inr (Or.inr (Or.inl (V2.ext_xy (show b.x = a.x + 0 by omega)
        (show b.y = a.y + 1 by omega))))))
    · exact Or.inr (Or.inr (Or.inr (Or.inr (Or.inr (V2.ext_xy (show b.x = a.x + -1 by omega)
        (show b.y = a.y + 0 by omega))))))

theorem adj_symm {a b : V2} (h : adj a b) : adj b a := by
  rw [adj_iff] at h ⊢
  omega

theorem reaches_refl {s : Finset V2} {a : V2} : reaches s a a := Relation.ReflTransGen.refl

theorem reaches_trans {s : Finset V2} {a b c : V2} (h1 : reaches s a b)
    (h2 : reaches s b c) : reaches s a c := Relation.ReflTransGen.trans h1 h2

theorem reaches_mono {s t : Finset V2} (hst : s ⊆ t) {a b : V2} (h : reaches s a b) :
    reaches t a b :=
  Relation.ReflTransGen.mono (fun _ _ hxy => ⟨hxy.1, hst hxy.2⟩) h

theorem reaches_mem_right {s : Finset V2} {a b : V2} (ha : a ∈ s) (h : reaches s a b) :
    b ∈ s := by
  induction h with
  | refl => exact ha
  | tail _ hstep _ => exact hstep.2

theorem reaches_symm {s : Finset V2} {a b : V2} (ha : a ∈ s) (h : reaches s a b) :
    reaches s b a := by
  induction h with
  | refl => exact reaches_refl
  | tail h1 hstep ih =>
    exact reaches_trans
      (Relation.ReflTransGen.single ⟨adj_symm hstep.1, reaches_mem_right ha h1⟩) ih

theorem mem_nsOf {points : Finset V2} {pos q : V2} :
    q ∈ nsOf points pos ↔ adj pos q ∧ q ∈ points := by
  simp [nsOf, adj, List.mem_filter]

theorem nsOf_subset (points : Finset V2) (pos : V2) : nsOf points pos ⊆ points :=
  fun _ h => (mem_nsOf.1 h).2

/-- One iteration of the flood-fill loop does not change the set of points the
edge can reach, beyond peeling off the processed point `pos`. -/
theorem reach_peel {points edge : Finset V2} (hd : Disjoint points edge) {pos : V2}
    (hpe : pos ∈ edge) (q : V2) :
    (∃ e ∈ edge, reaches (points ∪ edge) e q) ↔
      (q = pos ∨ ∃ e ∈ edge.erase pos ∪ nsOf points pos,
        reaches ((points ∪ edge).erase pos) e q) := by
  have hpos_np : pos ∉ points := fun hc => (Finset.disjoint_left.1 hd hc) hpe
  constructor
  · rintro ⟨e, he, hreach⟩
    induction hreach with
    | refl =>
      by_cases hep : e = pos
      · exact Or.inl hep
      · exact Or.inr ⟨e, Finset.mem_union_left _ (Finset.mem_erase.2 ⟨hep, he⟩), reaches_refl⟩
    | tail h1 hstep ih =>
      rename_i y q'
      by_cases hqp : q' = pos
      · exact Or.inl hqp
      · rcases ih with hyp | ⟨e2, he2, h2⟩
        · subst hyp
          by_cases hq'p : q' ∈ points
          · exact Or.inr ⟨q', Finset.mem_union_right _ (mem_nsOf.2 ⟨hstep.1, hq'p⟩),
              reaches_refl⟩
          · have hq'e : q' ∈ edge := by
              rcases Finset.mem_union.1 hstep.2 with h | h
              · exact absurd h hq'p
              · exact h
            exact Or.inr ⟨q', Finset.mem_union_left _ (Finset.mem_erase.2 ⟨hqp, hq'e⟩),
              reaches_refl⟩
        · exact Or.inr ⟨e2, he2,
            Relation.ReflTransGen.tail h2 ⟨hstep.1, Finset.mem_erase.2 ⟨hqp, hstep.2⟩⟩⟩
  · rintro (rfl | ⟨e, he, hreach⟩)
    · exact ⟨_, hpe, reaches_refl⟩
    · have hmono : reaches ((points ∪ edge).erase pos) e q → reaches (points ∪ edge) e q :=
        reaches_mono (Finset.erase_subset _ _)
      rcases Finset.mem_union.1 he with he' | hens
      · exact ⟨e, Finset.mem_of_mem_erase he', hmono hreach⟩
      · have hadj : adj pos e ∧ e ∈ points := mem_nsOf.1 hens
        exact ⟨pos, hpe,
          reaches_trans
            (Relation.ReflTransGen.single ⟨hadj.1, Finset.mem_union_left _ hadj.2⟩)
            (hmono hreach)⟩

/-- Set bookkeeping for one flood-fill iteration. -/
theorem step_set_eq {points edge : Finset V2} (hd : Disjoint points edge) {pos : V2}
    (hpe : pos ∈ edge) :
    (points \ nsOf points pos) ∪ (edge.erase pos ∪ nsOf points pos) =
      (points ∪ edge).erase pos := by
  have hpos_np : pos ∉ points := fun hc => (Finset.disjoint_left.1 hd hc) hpe
  ext r
  simp only [Finset.mem_union, Finset.mem_sdiff, Finset.mem_erase, mem_nsOf]
  constructor
  · rintro ((⟨hr, _⟩) | (⟨hne, hr⟩ | ⟨_, hr⟩))
    · exact ⟨fun he => hpos_np (he ▸ hr), Or.inl hr⟩
    · exact ⟨hne, Or.inr hr⟩
    · exact ⟨fun he => hpos_np (he ▸ hr), Or.inl hr⟩
  · rintro ⟨hne, hr | hr⟩
    · by_cases hn : adj pos r ∧ r ∈ points
      · exact Or.inr (Or.inr hn)
      · exact Or.inl ⟨hr, hn⟩
    · exact Or.inr (Or.inl ⟨hne, hr⟩)

theorem step_disjoint {points edge : Finset V2} (hd : Disjoint points edge) (pos : V2) :
    Disjoint (points \ nsOf points pos) (edge.erase pos ∪ nsOf points pos) := by
  rw [Finset.disjoint_union_right]
  constructor
  · exact Finset.disjoint_of_subset_left (Finset.sdiff_subset)
      (Finset.disjoint_of_subset_right (Finset.erase_subset _ _) hd)
  · exact Finset.sdiff_disjoint

/-- Complete characterization of the flood-fill loop: the returned set is the
accumulator plus everything hex-reachable from the edge set inside the
remaining points, for any valid pick oracle. -/
theorem floodFillAux_spec (pick : Pick) (hv : ValidPick pick) :
    ∀ fuel n points edge ret, Disjoint points edge →
      points.card + edge.card + 1 ≤ fuel →
      ∀ q, q ∈ (floodFillAux pick n fuel points edge ret).1 ↔
        (q ∈ ret ∨ ∃ e ∈ edge, reaches (points ∪ edge) e q) := by
  intro fuel
  induction fuel with
  | zero => intro n points edge ret _ hfuel; omega
  | succ fuel ih =>
    intro n points edge ret hdisj hfuel q
    by_cases hedge : edge = ∅
    · subst hedge
      simp [floodFillAux]
    · have hne : edge.Nonempty := Finset.nonempty_iff_ne_empty.2 hedge
      have hpe : pick n edge ∈ edge := hv n edge hne
      have hstep := step_set_eq hdisj hpe
      have hd2 := step_disjoint hdisj (pick n edge)
      have hsub := nsOf_subset points (pick n edge)
      have hcard1 : (points \ nsOf points (pick n edge)).card
          = points.card - (nsOf points (pick n edge)).card := Finset.card_sdiff hsub
      have hcard2 : (edge.erase (pick n edge)).card = edge.card - 1 :=
        Finset.card_erase_of_mem hpe
      have hcard3 : (nsOf points (pick n edge)).card ≤ points.card :=
        Finset.card_le_card hsub
      have hcard4 : (edge.erase (pick n edge) ∪ nsOf points (pick n edge)).card
          ≤ (edge.erase (pick n edge)).card + (nsOf points (pick n edge)).card :=
        Finset.card_union_le _ _
      have hedgec : 1 ≤ edge.card := Finset.card_pos.2 hne
      have hfuel2 : (points \ nsOf points (pick n edge)).card +
          (edge.erase (pick n edge) ∪ nsOf points (pick n edge)).card + 1 ≤ fuel := by
        omega
      have hunf : floodFillAux pick n (fuel + 1) points edge ret =
          floodFillAux pick (n + 1) fuel (points \ nsOf points (pick n edge))
            (edge.erase (pick n edge) ∪ nsOf points (pick n edge))
            (insert (pick n edge) ret) := by
        rw [floodFillAux]
        simp only [if_neg hedge, if_pos hpe]
      rw [hunf, ih (n + 1) _ _ _ hd2 hfuel2 q, hstep, Finset.mem_insert,
        reach_peel hdisj hpe q]
      tauto

/-- The flood fill of `map.rs` computes exactly the hex-connected component of
the seed inside the point set, for any valid pick oracle. -/
theorem floodFill_spec (pick : Pick) (hv : ValidPick pick) (n : Nat)
    (points : Finset V2) (seed : V2) (hs : seed ∈ points) (q : V2) :
    q ∈ (floodFill pick n points seed).1 ↔ reaches points seed q := by
  unfold floodFill
  rw [if_pos hs]
  have hdisj : Disjoint (points.erase seed) ({seed} : Finset V2) := by
    simp [Finset.disjoint_singleton_right]
  have hcard : (points.erase seed).card + ({seed} : Finset V2).card + 1 ≤ points.card + 1 := by
    have h1 : (points.erase seed).card = points.card - 1 := Finset.card_erase_of_mem hs
    have h2 : 1 ≤ points.card := Finset.card_pos.2 ⟨seed, hs⟩
    simp only [Finset.card_singleton, h1]
    omega
  rw [floodFillAux_spec pick hv _ _ _ _ _ hdisj hcard q]
  have hset : points.erase seed ∪ {seed} = points := by
    rw [Finset.union_comm, ← Finset.insert_eq, Finset.insert_erase hs]
  rw [hset]
  simp

theorem pickMin_valid : ValidPick pickMin := by
  intro n s hs
  unfold pickMin
  rw [fsort_eq_sort]
  have hlen : (s.sort keyLe).length = s.card := Finset.length_sort keyLe
  have hpos : 0 < (s.sort keyLe).length := by
    rw [hlen]
    exact Finset.card_pos.2 hs
  cases he : s.sort keyLe with
  | nil => rw [he] at hpos; simp at hpos
  | cons a l =>
    have : a ∈ s.sort keyLe := by rw [he]; exact List.mem_cons_self a l
    have := (Finset.mem_sort keyLe).1 this
    simpa [he] using this

/-- All valid pick oracles produce the same flood-fill component. -/
theorem floodFill_eq_canon (pick : Pick) (hv : ValidPick pick) (n : Nat)
    (points : Finset V2) (seed : V2) (hs : seed ∈ points) :
    (floodFill pick n points seed).1 = canonComp points seed := by
  apply Finset.ext
  intro q
  rw [floodFill_spec pick hv n points seed hs q]
  exact (floodFill_spec pickMin pickMin_valid 0 points seed hs q).symm

theorem mem_canonComp {points : Finset V2} {seed q : V2} (hs : seed ∈ points) :
    q ∈ canonComp points seed ↔ reaches points seed q :=
  floodFill_spec pickMin pickMin_valid 0 points seed hs q

theorem canonComp_self_mem {points : Finset V2} {seed : V2} (hs : seed ∈ points) :
    seed ∈ canonComp points seed := (mem_canonComp hs).2 reaches_refl

theorem canonComp_subset {points : Finset V2} {seed : V2} (hs : seed ∈ points) :
    canonComp points seed ⊆ points := by
  intro q hq
  exact reaches_mem_right hs ((mem_canonComp hs).1 hq)

theorem canonComp_eq_of_mem {points : Finset V2} {seed r : V2} (hs : seed ∈ points)
    (hr : r ∈ canonComp points seed) : canonComp points r = canonComp points seed := by
  have hreach : reaches points seed r := (mem_canonComp hs).1 hr
  have hrp : r ∈ points := reaches_mem_right hs hreach
  apply Finset.ext
  intro q
  rw [mem_canonComp hrp, mem_canonComp hs]
  constructor
  · exact fun h => reaches_trans hreach h
  · exact fun h => reaches_trans (reaches_symm hs hreach) h

/-- Paths inside `s` starting outside the component `C` of `seed` never enter
`C`, so connectivity inside `s \ C` agrees with connectivity inside `s`. -/
theorem reaches_sdiff_of_nmem {s : Finset V2} {seed : V2} (hseed : seed ∈ s) {q t : V2}
    (hq : q ∈ s \ canonComp s seed) (h : reaches s q t) :
    t ∉ canonComp s seed ∧ reaches (s \ canonComp s seed) q t := by
  induction h with
  | refl => exact ⟨(Finset.mem_sdiff.1 hq).2, reaches_refl⟩
  | tail h1 hstep ih =>
    rename_i y t'
    have hqs : q ∈ s := (Finset.mem_sdiff.1 hq).1
    have hys : y ∈ s := reaches_mem_right hqs h1
    have htC : t' ∉ canonComp s seed := by
      intro htC
      have hst : reaches s seed t' := (mem_canonComp hseed).1 htC
      have hsy : reaches s seed y :=
        Relation.ReflTransGen.tail hst ⟨adj_symm hstep.1, hys⟩
      exact ih.1 ((mem_canonComp hseed).2 hsy)
    exact ⟨htC, Relation.ReflTransGen.tail ih.2
      ⟨hstep.1, Finset.mem_sdiff.2 ⟨hstep.2, htC⟩⟩⟩

theorem canonComp_sdiff {s : Finset V2} {seed : V2} (hseed : seed ∈ s) {q : V2}
    (hq : q ∈ s \ canonComp s seed) :
    canonComp (s \ canonComp s seed) q = canonComp s q := by
  have hqs : q ∈ s := (Finset.mem_sdiff.1 hq).1
  apply Finset.ext
  intro t
  rw [mem_canonComp hq, mem_canonComp hqs]
  constructor
  · exact fun h => reaches_mono Finset.sdiff_subset h
  · exact fun h => (reaches_sdiff_of_nmem hseed hq h).2

theorem sort_inj {s t : Finset V2} (h : fsort s = fsort t) : s = t := by
  rw [fsort_eq_sort, fsort_eq_sort] at h
  ext q
  rw [← Finset.mem_sort keyLe, h, Finset.mem_sort keyLe]

/-- The loop of `separate_regions` discovers, in some order, exactly the
distinct sorted components of the point set, without repetition. -/
theorem sepAux_spec (pick : Pick) (hv : ValidPick pick) :
    ∀ fuel n points, points.card < fuel →
      ((sepAux pick n fuel points).1.toFinset =
        points.image (fun q => canonList points q)) ∧
      (sepAux pick n fuel points).1.Nodup := by
  intro fuel
  induction fuel with
  | zero => intro n points h; omega
  | succ fuel ih =>
    intro n points hfuel
    by_cases hempty : points = ∅
    · subst hempty
      simp [sepAux]
    · have hne : points.Nonempty := Finset.nonempty_iff_ne_empty.2 hempty
      have hseed : pick n points ∈ points := hv n points hne
      have hcomp : (floodFill pick (n + 1) points (pick n points)).1 =
          canonComp points (pick n points) :=
        floodFill_eq_canon pick hv (n + 1) points (pick n points) hseed
      have hunf : sepAux pick n (fuel + 1) points =
          (fsort (canonComp points (pick n points)) ::
            (sepAux pick (floodFill pick (n + 1) points (pick n points)).2 fuel
              (points \ canonComp points (pick n points))).1,
           (sepAux pick (floodFill pick (n + 1) points (pick n points)).2 fuel
              (points \ canonComp points (pick n points))).2) := by
        rw [sepAux]
        simp only [if_neg hempty, hcomp]
      have hCsub : canonComp points (pick n points) ⊆ points := canonComp_subset hseed
      have hCne : pick n points ∈ canonComp points (pick n points) :=
        canonComp_self_mem hseed
      have hrest_card : (points \ canonComp points (pick n points)).card < fuel := by
        have h1 : (points \ canonComp points (pick n points)).card =
            points.card - (canonComp points (pick n points)).card :=
          Finset.card_sdiff hCsub
        have h2 : 1 ≤ (canonComp points (pick n points)).card :=
          Finset.card_pos.2 ⟨pick n points, hCne⟩
        have h3 : (canonComp points (pick n points)).card ≤ points.card :=
          Finset.card_le_card hCsub
        omega
      obtain ⟨ihset, ihnd⟩ := ih (floodFill pick (n + 1) points (pick n points)).2
        (points \ canonComp points (pick n points)) hrest_card
      have hcongr : (points \ canonComp points (pick n points)).image
            (fun q => canonList (points \ canonComp points (pick n points)) q) =
          (points \ canonComp points (pick n points)).image
            (fun q => canonList points q) := by
        apply Finset.image_congr
        intro q hq
        have hq2 : q ∈ points \ canonComp points (pick n points) := hq
        show canonList (points \ canonComp points (pick n points)) q = canonList points q
        unfold canonList
        rw [canonComp_sdiff hseed hq2]
      have himageC : (canonComp points (pick n points)).image
            (fun q => canonList points q) = {canonList points (pick n points)} := by
        have hcongr2 : ∀ q ∈ canonComp points (pick n points),
            canonList points q = canonList points (pick n points) := by
          intro q hq
          unfold canonList
          rw [canonComp_eq_of_mem hseed hq]
        rw [Finset.image_congr hcongr2, Finset.image_const ⟨pick n points, hCne⟩]
      have hnotin : canonList points (pick n points) ∉
          (points \ canonComp points (pick n points)).image
            (fun q => canonList points q) := by
        intro hmem
        obtain ⟨q, hq, heq⟩ := Finset.mem_image.1 hmem
        have hqq : canonComp points q = canonComp points (pick n points) := sort_inj heq
        have hqC : q ∈ canonComp points (pick n points) := by
          rw [← hqq]
          exact canonComp_self_mem (Finset.mem_sdiff.1 hq).1
        exact (Finset.mem_sdiff.1 hq).2 hqC
      have hsplit : points.image (fun q => canonList points q) =
          insert (canonList points (pick n points))
            ((points \ canonComp points (pick n points)).image
              (fun q => canonList points q)) := by
        have hu : (points \ canonComp points (pick n points)) ∪
            canonComp points (pick n points) = points :=
          Finset.sdiff_union_of_subset hCsub
        calc points.image (fun q => canonList points q)
            = ((points \ canonComp points (pick n points)) ∪
                canonComp points (pick n points)).image
                (fun q => canonList points q) := by rw [hu]
          _ = (points \ canonComp points (pick n points)).image
                (fun q => canonList points q) ∪
              (canonComp points (pick n points)).image
                (fun q => canonList points q) := Finset.image_union _ _
          _ = (points \ canonComp points (pick n points)).image
                (fun q => canonList points q) ∪
              {canonList points (pick n points)} := by rw [himageC]
          _ = insert (canonList points (pick n points))
                ((points \ canonComp points (pick n points)).image
                  (fun q => canonList points q)) := by
              rw [Finset.union_comm, ← Finset.insert_eq]
      constructor
      · rw [hunf]
        simp only [List.toFinset_cons, ihset, hcongr]
        rw [hsplit]
        rfl
      · rw [hunf]
        refine List.Nodup.cons ?_ ihnd
        intro hmem
        apply hnotin
        rw [← hcongr, ← ihset]
        exact List.mem_toFinset.2 hmem

/-- Output of `separate_regions` is a pure function of the input point set:
any two valid pick oracles (hash iteration orders) at any counters agree. -/
theorem separate_regions_pick_eq (pick1 pick2 : Pick) (hv1 : ValidPick pick1)
    (hv2 : ValidPick pick2) (n1 n2 : Nat) (s : Finset V2) :
    (separate_regions pick1 n1 s).1 = (separate_regions pick2 n2 s).1 := by
  have h1 := sepAux_spec pick1 hv1 (s.card + 1) n1 s (Nat.lt_succ_self _)
  have h2 := sepAux_spec pick2 hv2 (s.card + 1) n2 s (Nat.lt_succ_self _)
  have hperm : (sepAux pick1 n1 (s.card + 1) s).1.Perm (sepAux pick2 n2 (s.card + 1) s).1 := by
    rw [List.perm_ext_iff_of_nodup h1.2 h2.2]
    intro a
    rw [← List.mem_toFinset, ← List.mem_toFinset, h1.1, h2.1]
  unfold separate_regions
  refine List.eq_of_perm_of_sorted ?_ (List.sorted_insertionSort listLe _)
    (List.sorted_insertionSort listLe _)
  exact ((List.perm_insertionSort listLe _).trans hperm).trans
    (List.perm_insertionSort listLe _).symm

theorem separate_regions_sorted (pick : Pick) (n : Nat) (s : Finset V2) :
    (separate_regions pick n s).1.Sorted listLe :=
  List.sorted_insertionSort listLe _

/-- Membership in the output of `separate_regions`: exactly the canonical
sorted component lists of the input set. -/
theorem separate_regions_mem (pick : Pick) (hv : ValidPick pick) (n : Nat)
    (s : Finset V2) (l : List V2) :
    l ∈ (separate_regions pick n s).1 ↔ ∃ q ∈ s, l = canonList s q := by
  have h1 := sepAux_spec pick hv (s.card + 1) n s (Nat.lt_succ_self _)
  unfold separate_regions
  rw [List.Perm.mem_iff (List.perm_insertionSort listLe _), ← List.mem_toFinset, h1.1,
    Finset.mem_image]
  constructor
  · rintro ⟨q, hq, rfl⟩
    exact ⟨q, hq, rfl⟩
  · rintro ⟨q, hq, rfl⟩
    exact ⟨q, hq, rfl⟩

theorem canonList_sorted (s : Finset V2) (q : V2) : (canonList s q).Sorted keyLe := by
  unfold canonList
  exact fsort_sorted _

theorem canonList_nodup (s : Finset V2) (q : V2) : (canonList s q).Nodup := by
  unfold canonList
  rw [fsort_eq_sort]
  exact Finset.sort_nodup keyLe _

theorem mem_canonList {s : Finset V2} {q r : V2} (hq : q ∈ s) :
    r ∈ canonList s q ↔ reaches s q r := by
  unfold canonList
  rw [fsort_eq_sort, Finset.mem_sort keyLe, mem_canonComp hq]

end RegionProofs

section MapQueryProofs

theorem get_cons_of_key_ne {e : V2 × MapCell} {l : List (V2 × MapCell)} {q : V2}
    (h : e.1 ≠ q) : Map.get ⟨e :: l⟩ q = Map.get ⟨l⟩ q := by
  unfold Map.get
  simp only [List.find?, decide_eq_false h, Bool.false_eq_true]

theorem get_of_mem_aux {q : V2} {c : MapCell} :
    ∀ l : List (V2 × MapCell), (l.map (·.1)).Nodup → (q, c) ∈ l →
      Map.get ⟨l⟩ q = some c := by
  intro l
  induction l with
  | nil => intro _ h; cases h
  | cons e rest ih =>
    intro hnd hmem
    simp only [List.map_cons, List.nodup_cons] at hnd
    rcases List.mem_cons.1 hmem with heq | hmem2
    · subst heq
      simp [Map.get, List.find?]
    · have hne : e.1 ≠ q := by
        intro hc2
        apply hnd.1
        rw [hc2]
        exact List.mem_map.2 ⟨(q, c), hmem2, rfl⟩
      rw [get_cons_of_key_ne hne]
      exact ih hnd.2 hmem2

theorem Map.get_eq_iff_mem {m : Map} (hnd : m.NodupKeys) {q : V2} {c : MapCell} :
    m.get q = some c ↔ (q, c) ∈ m.contents := by
  constructor
  · intro h
    unfold Map.get at h
    obtain ⟨e, hfind, hc⟩ : ∃ e, m.contents.find? (fun e => decide (e.1 = q)) = some e ∧
        e.2 = c := by
      cases hf : m.contents.find? (fun e => decide (e.1 = q)) with
      | none => rw [hf] at h; simp at h
      | some e => rw [hf] at h; exact ⟨e, rfl, by simpa using h⟩
    have hmem := List.mem_of_find?_eq_some hfind
    have hkey : e.1 = q := by simpa using List.find?_some hfind
    have : e = (q, c) := Prod.ext hkey hc
    exact this ▸ hmem
  · exact fun hmem => get_of_mem_aux m.contents hnd hmem

theorem Map.find_positions_sorted (m : Map) (pred : V2 → MapCell → Bool) :
    (m.find_positions pred).Sorted keyLe :=
  List.sorted_insertionSort keyLe _

theorem Map.find_positions_mem {m : Map} (hnd : m.NodupKeys)
    (pred : V2 → MapCell → Bool) (q : V2) :
    q ∈ m.find_positions pred ↔ ∃ c, m.get q = some c ∧ pred q c = true := by
  unfold Map.find_positions
  rw [List.Perm.mem_iff (List.perm_insertionSort keyLe _), List.mem_filterMap]
  constructor
  · rintro ⟨e, hmem, he⟩
    by_cases hp : pred e.1 e.2 = true
    · rw [if_pos hp] at he
      obtain rfl : e.1 = q := by simpa using he
      exact ⟨e.2, (Map.get_eq_iff_mem hnd).2 hmem, hp⟩
    · rw [if_neg hp] at he
      cases he
  · rintro ⟨c, hget, hp⟩
    exact ⟨(q, c), (Map.get_eq_iff_mem hnd).1 hget, by rw [if_pos hp]⟩

theorem Map.find_positions_perm_eq {m1 m2 : Map}
    (hperm : m1.contents.Perm m2.contents) (pred : V2 → MapCell → Bool) :
    m1.find_positions pred = m2.find_positions pred := by
  unfold Map.find_positions
  refine List.eq_of_perm_of_sorted ?_ (List.sorted_insertionSort keyLe _)
    (List.sorted_insertionSort keyLe _)
  refine ((List.perm_insertionSort keyLe _).trans ?_).trans
    (List.perm_insertionSort keyLe _).symm
  exact hperm.filterMap _

theorem filterMap_positions_nodup (pred : V2 → MapCell → Bool) :
    ∀ l : List (V2 × MapCell), (l.map (·.1)).Nodup →
      (l.filterMap (fun e => if pred e.1 e.2 then some e.1 else none)).Nodup := by
  intro l
  induction l with
  | nil => intro _; simp
  | cons e rest ih =>
    intro hnd
    simp only [List.map_cons, List.nodup_cons] at hnd
    by_cases hp : pred e.1 e.2 = true
    · simp only [List.filterMap_cons, if_pos hp]
      refine List.Nodup.cons ?_ (ih hnd.2)
      intro hmem
      obtain ⟨e2, hmem2, he2⟩ := List.mem_filterMap.1 hmem
      by_cases hp2 : pred e2.1 e2.2 = true
      · rw [if_pos hp2] at he2
        obtain hkey : e2.1 = e.1 := by simpa using he2
        exact hnd.1 (hkey ▸ List.mem_map.2 ⟨e2, hmem2, rfl⟩)
      · rw [if_neg hp2] at he2
        cases he2
    · simp only [List.filterMap_cons, if_neg hp]
      exact ih hnd.2

theorem Map.find_positions_nodup {m : Map} (hnd : m.NodupKeys)
    (pred : V2 → MapCell → Bool) : (m.find_positions pred).Nodup := by
  unfold Map.find_positions
  exact (List.perm_insertionSort keyLe _).nodup_iff.2
    (filterMap_positions_nodup pred m.contents hnd)

end MapQueryProofs

section PlacementProofs

theorem V2.add_right_inj {a b o : V2} : a + o = b + o ↔ a = b := by
  constructor
  · intro h
    have hx : a.x + o.x = b.x + o.x := congrArg V2.x h
    have hy : a.y + o.y = b.y + o.y := congrArg V2.y h
    exact V2.ext_xy (by omega) (by omega)
  · intro h
    rw [h]

theorem placeFold_get_untouched (offset : V2) :
    ∀ (l : List (V2 × MapCell)) (g : Map) (q : V2),
      (∀ e ∈ l, e.1 + offset ≠ q) → (l.foldl (placeStep offset) g).get q = g.get q := by
  intro l
  induction l with
  | nil => intro g q _; rfl
  | cons e rest ih =>
    intro g q hne
    rw [List.foldl_cons]
    rw [ih _ q (fun e2 h2 => hne e2 (List.mem_cons_of_mem e h2))]
    unfold placeStep
    by_cases hb : e.2.is_bumper = true
    · rw [if_pos hb]
    · rw [if_neg hb]
      exact Map.get_insert_ne _ _ _ _ fun h => hne e (List.mem_cons_self e rest) h.symm

/-- List-level version of the stamping lookup lemma. -/
theorem placeFold_get (offset : V2) {p : V2} {c : MapCell} :
    ∀ l : List (V2 × MapCell), (l.map (·.1)).Nodup → (p, c) ∈ l →
      ∀ g : Map, (l.foldl (placeStep offset) g).get (p + offset) =
        if c.is_bumper then g.get (p + offset)
        else some (stampCell (g.get (p + offset)) c) := by
  intro l
  induction l with
  | nil => intro _ hmem; cases hmem
  | cons e rest ih =>
    intro hnd hmem g
    simp only [List.map_cons, List.nodup_cons] at hnd
    rw [List.foldl_cons]
    rcases List.mem_cons.1 hmem with heq | hmem2
    · subst heq
      have huntouched : ∀ e2 ∈ rest, e2.1 + offset ≠ p + offset := by
        intro e2 h2 hc
        exact hnd.1 (V2.add_right_inj.1 hc ▸ List.mem_map.2 ⟨e2, h2, rfl⟩)
      rw [placeFold_get_untouched offset rest _ _ huntouched]
      unfold placeStep
      by_cases hb : c.is_bumper = true
      · rw [if_pos hb, if_pos hb]
      · rw [if_neg hb, if_neg hb]
        exact Map.get_insert_self _ _ _
    · have hek : e.1 ≠ p := by
        intro hc
        exact hnd.1 (hc ▸ List.mem_map.2 ⟨(p, c), hmem2, rfl⟩)
      have hstep : (placeStep offset g e).get (p + offset) = g.get (p + offset) := by
        unfold placeStep
        by_cases hb : e.2.is_bumper = true
        · rw [if_pos hb]
        · rw [if_neg hb]
          exact Map.get_insert_ne _ _ _ _ fun h => hek (V2.add_right_inj.1 h.symm)
      rw [ih hnd.2 hmem2 (placeStep offset g e), hstep]

/-- What `place_room_at` writes at the target position of each vault cell:
bumpers leave the grid untouched, every other cell is combined with the
pre-existing cell by `stampCell`. -/
theorem place_room_at_get {room : Map} (hnd : room.NodupKeys) {p : V2} {c : MapCell}
    (hmem : (p, c) ∈ room.contents) (offset : V2) (g : Map) :
    (g.place_room_at offset room).get (p + offset) =
      if c.is_bumper then g.get (p + offset)
      else some (stampCell (g.get (p + offset)) c) :=
  placeFold_get offset room.contents hnd hmem g

theorem Map.contains_insert_of_contains {m : Map} {p : V2} (c : MapCell)
    (h : m.contains p = true) (q : V2) : (m.insert p c).contains q = m.contains q := by
  by_cases hq : q = p
  · subst hq
    unfold Map.contains
    rw [Map.get_insert_self]
    unfold Map.contains at h
    rw [h]
    rfl
  · unfold Map.contains
    rw [Map.get_insert_ne _ _ _ _ hq]

/-- Digging never changes the set of defined coordinates. -/
theorem Map.dig_contains (m : Map) (pos : V2) (q : V2) :
    (m.dig pos).contains q = m.contains q := by
  unfold Map.dig
  cases hget : m.get pos with
  | none => rfl
  | some ex =>
    have hc : m.contains pos = true := by
      unfold Map.contains
      rw [hget]
      rfl
    dsimp only
    by_cases h1 : (ex.is_walkable || ex.is_interior) = true
    · rw [if_pos h1]
    · rw [if_neg h1]
      by_cases h2 : ex.is_border = true
      · rw [if_pos h2]
        exact Map.contains_insert_of_contains _ hc q
      · rw [if_neg h2]
        exact Map.contains_insert_of_contains _ hc q

end PlacementProofs

section TunnelProofs

/-- All map snapshots in the A* open set are defined at exactly the same
coordinates as the base map. -/
def OpenInv (base : Map) (o : List (V2 × Map)) : Prop :=
  ∀ e ∈ o, ∀ q, e.2.contains q = base.contains q

/-- Invariant carried through the direction-expansion fold. -/
def sumInv (base : Map) : Sum Map (List (V2 × Map)) → Prop
  | .inl f => ∀ q, f.contains q = base.contains q
  | .inr o => OpenInv base o

theorem oinsert_inv {base : Map} {o : List (V2 × Map)} (ho : OpenInv base o) {p : V2}
    {m : Map} (hm : ∀ q, m.contains q = base.contains q) :
    OpenInv base (oinsert o p m) := by
  intro e he q
  rcases List.mem_cons.1 he with rfl | he2
  · exact hm q
  · exact ho e (List.mem_of_mem_filter he2) q

theorem oremove_inv {base : Map} {o : List (V2 × Map)} (ho : OpenInv base o) (p : V2) :
    OpenInv base (oremove o p) :=
  fun e he q => ho e (List.mem_of_mem_filter he) q

theorem expand_fold_inv (base map : Map) (p p2 : V2) (closed : Finset V2)
    (hmap : ∀ q, map.contains q = base.contains q) :
    ∀ (dirs : List Dir6) (st : Sum Map (List (V2 × Map))), sumInv base st →
      sumInv base (dirs.foldl (fun st d =>
        match st with
        | .inl f => .inl f
        | .inr acc =>
          let q := p + d.vec
          if q ∈ closed then .inr acc
          else if map.can_tunnel p d then
            if q = p2 then .inl (map.dig q) else .inr (oinsert acc q (map.dig q))
          else .inr acc) st) := by
  intro dirs
  induction dirs with
  | nil => intro st h; exact h
  | cons d rest ih =>
    intro st h
    rw [List.foldl_cons]
    apply ih
    cases st with
    | inl f => exact h
    | inr acc =>
      dsimp only
      by_cases h1 : p + d.vec ∈ closed
      · rw [if_pos h1]; exact h
      · rw [if_neg h1]
        by_cases h2 : map.can_tunnel p d = true
        · rw [if_pos h2]
          by_cases h3 : p + d.vec = p2
          · rw [if_pos h3]
            exact fun q => (Map.dig_contains map _ q).trans (hmap q)
          · rw [if_neg h3]
            exact oinsert_inv h (fun q => (Map.dig_contains map _ q).trans (hmap q))
        · rw [if_neg h2]; exact h

theorem expandDirs_inv (base map : Map) (p p2 : V2) (closed : Finset V2)
    (o : List (V2 × Map)) (hmap : ∀ q, map.contains q = base.contains q)
    (ho : OpenInv base o) : sumInv base (expandDirs map p p2 closed o) :=
  expand_fold_inv base map p p2 closed hmap dir6List (.inr o) ho

theorem olookup_mem {o : List (V2 × Map)} {p : V2} {m : Map}
    (h : olookup o p = some m) : (p, m) ∈ o := by
  unfold olookup at h
  obtain ⟨e, hfind, hm⟩ : ∃ e, o.find? (fun e => decide (e.1 = p)) = some e ∧ e.2 = m := by
    cases hf : o.find? (fun e => decide (e.1 = p)) with
    | none => rw [hf] at h; simp at h
    | some e => rw [hf] at h; exact ⟨e, rfl, by simpa using h⟩
  have hkey : e.1 = p := by simpa using List.find?_some hfind
  have : e = (p, m) := Prod.ext hkey hm
  exact this ▸ List.mem_of_find?_eq_some hfind

theorem olookup_isSome_of_key {o : List (V2 × Map)} {p : V2}
    (h : p ∈ o.map (·.1)) : (olookup o p).isSome = true := by
  cases hf : o.find? (fun e => decide (e.1 = p)) with
  | none =>
    exfalso
    obtain ⟨e, he, hkey⟩ := List.mem_map.1 h
    have := List.find?_eq_none.1 hf e he
    simp [hkey] at this
  | some e => simp [olookup, hf]

theorem tunnel_head_mem {o : List (V2 × Map)} (hne : o ≠ []) (p2 : V2) :
    (((o.map (·.1)).insertionSort keyLe).insertionSort (tunnelLe p2)).headD ⟨0, 0⟩ ∈
      o.map (·.1) := by
  have hperm : (((o.map (·.1)).insertionSort keyLe).insertionSort (tunnelLe p2)).Perm
      (o.map (·.1)) :=
    (List.perm_insertionSort (tunnelLe p2) _).trans (List.perm_insertionSort keyLe _)
  cases hl : ((o.map (·.1)).insertionSort keyLe).insertionSort (tunnelLe p2) with
  | nil =>
    exfalso
    have h2 : (o.map (·.1)) = [] := ((hl ▸ hperm).symm).eq_nil
    exact hne (List.map_eq_nil_iff.1 h2)
  | cons a l =>
    have ha : a ∈ ((o.map (·.1)).insertionSort keyLe).insertionSort (tunnelLe p2) := by
      rw [hl]
      exact List.mem_cons_self a l
    simpa [hl] using hperm.mem_iff.1 ha

theorem find_tunnel_aux_inv (base : Map) (p2 : V2) :
    ∀ fuel (o : List (V2 × Map)) (closed : Finset V2), OpenInv base o →
      ∀ m', find_tunnel_aux p2 fuel o closed = some m' →
        ∀ q, m'.contains q = base.contains q := by
  intro fuel
  induction fuel with
  | zero => intro o closed _ m' h; cases h
  | succ fuel ih =>
    intro o closed ho m' h
    rw [find_tunnel_aux] at h
    by_cases hne : o.isEmpty = true
    · rw [if_pos hne] at h; cases h
    · rw [if_neg hne] at h
      dsimp only at h
      have honil : o ≠ [] := fun hc => hne (by simp [hc])
      have hhead := tunnel_head_mem honil p2
      obtain ⟨m1, hm1⟩ := Option.isSome_iff_exists.1 (olookup_isSome_of_key hhead)
      rw [hm1] at h
      dsimp only [Option.getD] at h
      have hmem := olookup_mem hm1
      have hmap : ∀ q, m1.contains q = base.contains q := ho (_, m1) hmem
      have hexp := expandDirs_inv base m1
        ((((o.map (·.1)).insertionSort keyLe).insertionSort (tunnelLe p2)).headD ⟨0, 0⟩)
        p2 closed o hmap ho
      cases hcase : expandDirs m1
          ((((o.map (·.1)).insertionSort keyLe).insertionSort (tunnelLe p2)).headD ⟨0, 0⟩)
          p2 closed o with
      | inl f =>
        rw [hcase] at h hexp
        obtain rfl : f = m' := Option.some.inj h
        exact hexp
      | inr o2 =>
        rw [hcase] at h hexp
        exact ih _ _ (oremove_inv hexp _) m' h

/-- Any map returned by `find_tunnel` is defined at exactly the same
coordinates as the input map. -/
theorem find_tunnel_same_domain {m : Map} {p1 p2 : V2} {fuel : Nat} {m' : Map}
    (h : m.find_tunnel p1 p2 fuel = some m') :
    ∀ q, m'.contains q = m.contains q := by
  unfold Map.find_tunnel at h
  apply find_tunnel_aux_inv m p2 fuel _ _ _ m' h
  intro e he q
  rcases List.mem_cons.1 he with rfl | he2
  · exact Map.dig_contains m p1 q
  · cases he2

/-- Any map returned by `join_disjoint_regions` is defined at exactly the same
coordinates as the input map. -/
theorem join_same_domain (pick : Pick) (tfuel : Nat) :
    ∀ fuel (ret : Map) (rng : List Nat) (n : Nat) (m' : Map),
      Map.join_disjoint_regions pick tfuel fuel ret rng n = some m' →
      ∀ q, m'.contains q = ret.contains q := by
  intro fuel
  induction fuel with
  | zero => intro ret rng n m' h; cases h
  | succ fuel ih =>
    intro ret rng n m' h
    rw [Map.join_disjoint_regions] at h
    dsimp only at h
    by_cases hlt : ((separate_regions pick n (walkable_floors ret)).1.filter
        (fun r => !ret.is_interior_bubble r)).length < 2
    · rw [if_pos hlt] at h
      obtain rfl : ret = m' := Option.some.inj h
      intro q
      rfl
    · rw [if_neg hlt] at h
      cases hft : ret.find_tunnel
          (sampleList (((separate_regions pick n (walkable_floors ret)).1.filter
            (fun r => !ret.is_interior_bubble r)).headD []) (rng.headD 0))
          (sampleList ((((separate_regions pick n (walkable_floors ret)).1.filter
            (fun r => !ret.is_interior_bubble r)).drop 1).headD []) (rng.tail.headD 0))
          tfuel with
      | none => rw [hft] at h; cases h
      | some connected =>
        rw [hft] at h
        intro q
        exact (ih connected rng.tail.tail _ m' h q).trans
          (find_tunnel_same_domain hft q)

/-- When `join_disjoint_regions` succeeds, the break condition of its loop
holds of the returned map: fewer than two non-bubble walkable regions. -/
theorem join_regions_lt_two (pick : Pick) (hv : ValidPick pick) (tfuel : Nat) :
    ∀ fuel (ret : Map) (rng : List Nat) (n : Nat) (m' : Map),
      Map.join_disjoint_regions pick tfuel fuel ret rng n = some m' →
      ((separate_regions pickMin 0 (walkable_floors m')).1.filter
        (fun r => !m'.is_interior_bubble r)).length < 2 := by
  intro fuel
  induction fuel with
  | zero => intro ret rng n m' h; cases h
  | succ fuel ih =>
    intro ret rng n m' h
    rw [Map.join_disjoint_regions] at h
    dsimp only at h
    by_cases hlt : ((separate_regions pick n (walkable_floors ret)).1.filter
        (fun r => !ret.is_interior_bubble r)).length < 2
    · rw [if_pos hlt] at h
      obtain rfl : ret = m' := Option.some.inj h
      rw [separate_regions_pick_eq pickMin pick pickMin_valid hv 0 n (walkable_floors ret)]
      exact hlt
    · rw [if_neg hlt] at h
      cases hft : ret.find_tunnel
          (sampleList (((separate_regions pick n (walkable_floors ret)).1.filter
            (fun r => !ret.is_interior_bubble r)).headD []) (rng.headD 0))
          (sampleList ((((separate_regions pick n (walkable_floors ret)).1.filter
            (fun r => !ret.is_interior_bubble r)).drop 1).headD []) (rng.tail.headD 0))
          tfuel with
      | none => rw [hft] at h; cases h
      | some connected =>
        rw [hft] at h
        exact ih connected rng.tail.tail _ m' h

end TunnelProofs

section ClaimC3

/-- Claim C3 (amended): `can_tunnel` is legal whenever the target cell is
already walkable (even a walkable vault-Interior cell), and illegal whenever
the target cell is not walkable and is undefined, undiggable, or
vault-Interior — regardless of the neighboring cells. -/
theorem C3_can_tunnel_target_legality (m : Map) (pos : V2) (dir : Dir6) :
    (∀ c, m.get (pos + dir.vec) = some c → c.is_walkable = true →
      m.can_tunnel pos dir = true) ∧
    (m.get (pos + dir.vec) = none → m.can_tunnel pos dir = false) ∧
    (∀ c, m.get (pos + dir.vec) = some c → c.is_walkable = false →
      (c.can_dig = false ∨ c.vault_kind = some VaultKind.Interior) →
      m.can_tunnel pos dir = false) := by
  refine ⟨?_, ?_, ?_⟩
  · intro c hget hw
    simp [Map.can_tunnel, hget, hw]
  · intro hget
    simp [Map.can_tunnel, hget]
  · intro c hget hw hbad
    rcases hbad with hb | hb <;> simp [Map.can_tunnel, hget, hw, hb]

/-- A one-cell map whose only cell is walkable vault interior: the target of
the tunneling probe. -/
def cexC3 : Map :=
  ⟨[(⟨1, 0⟩, ⟨.Ground, [], true, some .Interior⟩)]⟩

/-- Counterexample to claim C3 as stated: the target cell is vault-Interior,
yet `can_tunnel` reports the move legal, because the walkability check runs
first. -/
theorem C3_counterexample :
    cexC3.can_tunnel ⟨0, 0⟩ Dir6.southeast = true ∧
    cexC3.get ((⟨0, 0⟩ : V2) + Dir6.southeast.vec) =
      some (⟨.Ground, [], true, some .Interior⟩ : MapCell) := by
  constructor
  · decide
  · decide

/-- Witness instantiating `C3_can_tunnel_target_legality` at concrete maps. -/
theorem C3_witness :
    cexC3.can_tunnel ⟨0, 0⟩ Dir6.southeast = true ∧
    cexC3.can_tunnel ⟨3, 3⟩ Dir6.southeast = false := by
  constructor
  · exact (C3_can_tunnel_target_legality cexC3 ⟨0, 0⟩ Dir6.southeast).1
      ⟨.Ground, [], true, some .Interior⟩ (by decide) (by decide)
  · exact (C3_can_tunnel_target_legality cexC3 ⟨3, 3⟩ Dir6.southeast).2.1 (by decide)

end ClaimC3

section ClaimC4

theorem V2.add_comm (a b : V2) : a + b = b + a := by
  apply V2.ext_xy
  · show a.x + b.x = b.x + a.x
    omega
  · show a.y + b.y = b.y + a.y
    omega

/-- Claim C4: stamping a vault that contains interior cells onto an empty grid
at offset `O` and re-testing placement of the same vault at `O` reports the
placement illegal — the interior is already occupied. -/
theorem C4_restamp_rejected (room : Map) (hnd : room.NodupKeys) (O : V2)
    (hint : ∃ e ∈ room.contents, e.2.is_interior = true) :
    (Map.new.place_room_at O room).is_valid_placement O room = false := by
  obtain ⟨⟨p, c⟩, hmem, hi⟩ := hint
  unfold Map.is_valid_placement
  by_contra hc
  have hall : (room.contents.all
      (fun e => (Map.new.place_room_at O room).cell_ok O room e.1 e.2)) = true := by
    cases h : room.contents.all
        (fun e => (Map.new.place_room_at O room).cell_ok O room e.1 e.2) with
    | true => rfl
    | false => exact absurd h hc
  have hcell := List.all_eq_true.1 hall (p, c) hmem
  have hget := place_room_at_get hnd hmem O Map.new
  rw [V2.add_comm p O] at hget
  by_cases hb : c.is_bumper = true
  · rw [if_pos hb] at hget
    have hnone : (Map.new.place_room_at O room).get (O + p) = none := hget
    unfold Map.cell_ok at hcell
    rw [hnone] at hcell
    simp only [hb, Bool.or_true, Bool.not_true] at hcell
    cases hcell
  · rw [if_neg hb] at hget
    have hsome : (Map.new.place_room_at O room).get (O + p) = some c := by
      rw [hget]
      rfl
    unfold Map.cell_ok at hcell
    rw [hsome] at hcell
    simp only [hi, if_pos] at hcell
    cases hcell

/-- A small vault with an interior floor cell and a border wall cell. -/
def roomC4 : Map :=
  ⟨[(⟨0, 0⟩, ⟨.Ground, [], true, some .Interior⟩),
    (⟨1, 0⟩, ⟨.Wall, [], true, some .Border⟩)]⟩

/-- Witness instantiating `C4_restamp_rejected` at a concrete vault. -/
theorem C4_witness :
    roomC4.NodupKeys ∧
    (Map.new.place_room_at ⟨5, 5⟩ roomC4).is_valid_placement ⟨5, 5⟩ roomC4 = false :=
  ⟨by decide, C4_restamp_rejected roomC4 (by decide) ⟨5, 5⟩ (by decide)⟩

end ClaimC4

section ClaimC6

theorem stampCell_can_dig (e c : MapCell) :
    (stampCell (some e) c).can_dig = (c.can_dig && e.can_dig) := by
  unfold stampCell MapCell.to_door
  cases hw : e.is_walkable <;> cases hbb : c.is_border <;> cases hcd : c.can_dig <;>
    cases hed : e.can_dig <;> simp [hw, hbb, hcd, hed]

theorem stampCell_door (e c : MapCell) (hw : e.is_walkable = true)
    (hb : c.is_border = true) (hd : c.can_dig = true) :
    (stampCell (some e) c).terrain = Terrain.Door := by
  unfold stampCell MapCell.to_door
  cases hed : e.can_dig <;> simp [hw, hb, hd, hed]

/-- Claim C6: in a legal stamping, bumper cells write nothing; at every
defined target position the stamped cell's diggability is the AND of the vault
cell's and the existing cell's diggability, and a diggable border cell landing
on a walkable cell becomes a Door. -/
theorem C6_stamping_semantics (g room : Map) (hnd : room.NodupKeys) (O : V2)
    (_hvalid : g.is_valid_placement O room = true) (p : V2) (c : MapCell)
    (hmem : (p, c) ∈ room.contents) :
    (c.is_bumper = true → (g.place_room_at O room).get (p + O) = g.get (p + O)) ∧
    (∀ e, g.get (p + O) = some e → c.is_bumper = false →
      ∃ c2, (g.place_room_at O room).get (p + O) = some c2 ∧
        c2.can_dig = (c.can_dig && e.can_dig) ∧
        (e.is_walkable = true → c.is_border = true → c.can_dig = true →
          c2.terrain = Terrain.Door)) := by
  have hget := place_room_at_get hnd hmem O g
  constructor
  · intro hb
    rw [if_pos hb] at hget
    exact hget
  · intro e he hb
    rw [if_neg (by rw [hb]; exact Bool.false_ne_true)] at hget
    refine ⟨stampCell (some e) c, by rw [hget, he], ?_, ?_⟩
    · exact stampCell_can_dig e c
    · exact fun hw hbord hd => stampCell_door e c hw hbord hd

/-- Concrete grid for the stamping witness: walkable ground at the border
target and a plain defined cell under the bumper. -/
def gC6 : Map :=
  ⟨[(⟨0, 0⟩, ⟨.Ground, [], true, none⟩), (⟨2, 2⟩, ⟨.Ground, [], true, none⟩)]⟩

/-- Concrete vault for the stamping witness: one diggable border wall cell and
one bumper. -/
def roomC6 : Map :=
  ⟨[(⟨0, 0⟩, ⟨.Wall, [], true, some .Border⟩),
    (⟨2, 2⟩, ⟨.Empty, [], true, none⟩)]⟩

/-- Witness instantiating `C6_stamping_semantics` at a concrete legal
stamping: the border wall dropped on walkable ground becomes a door that
stays diggable, and the bumper writes nothing. -/
theorem C6_witness :
    gC6.is_valid_placement ⟨0, 0⟩ roomC6 = true ∧
    (∃ c2, (gC6.place_room_at ⟨0, 0⟩ roomC6).get ((⟨0, 0⟩ : V2) + ⟨0, 0⟩) = some c2 ∧
      c2.can_dig = true ∧ c2.terrain = Terrain.Door) ∧
    (gC6.place_room_at ⟨0, 0⟩ roomC6).get ((⟨2, 2⟩ : V2) + ⟨0, 0⟩) =
      gC6.get ((⟨2, 2⟩ : V2) + ⟨0, 0⟩) := by
  have hvalid : gC6.is_valid_placement ⟨0, 0⟩ roomC6 = true := by decide
  refine ⟨hvalid, ?_, ?_⟩
  · obtain ⟨c2, hc2, hdig, hdoor⟩ :=
      (C6_stamping_semantics gC6 roomC6 (by decide) ⟨0, 0⟩ hvalid ⟨0, 0⟩
        ⟨.Wall, [], true, some .Border⟩ (by decide)).2
        ⟨.Ground, [], true, none⟩ (by decide) (by decide)
    exact ⟨c2, hc2, by rw [hdig]; rfl, hdoor (by decide) (by decide) (by decide)⟩
  · exact (C6_stamping_semantics gC6 roomC6 (by decide) ⟨0, 0⟩ hvalid ⟨2, 2⟩
      ⟨.Empty, [], true, none⟩ (by decide)).1 (by decide)

end ClaimC6

section VaultLemmas

theorem glyphCell_invalid {c : Char} (h : c ∉ vaultGlyphs) (prefab : List (V2 × Char))
    (pos : V2) : glyphCell prefab pos c = .error (.unknownGlyph c) := by
  have hne : ∀ g ∈ vaultGlyphs, c ≠ g := fun g hg he => h (he ▸ hg)
  unfold glyphCell
  rw [if_neg (hne ' ' (by decide)), if_neg (hne '_' (by decide)),
    if_neg (hne '%' (by decide)), if_neg (hne '#' (by decide)),
    if_neg (hne '.' (by decide)), if_neg (hne '>' (by decide)),
    if_neg (hne '<' (by decide)), if_neg (hne '~' (by decide)),
    if_neg (hne 'I' (by decide)), if_neg (hne '+' (by decide)),
    if_neg (hne 'a' (by decide))]

theorem glyphCell_valid {c : Char} (h : c ∈ vaultGlyphs) (prefab : List (V2 × Char))
    (pos : V2) : ∃ v, glyphCell prefab pos c = .ok v := by
  simp only [vaultGlyphs, List.mem_cons, List.not_mem_nil, or_false] at h
  rcases h with rfl | rfl | rfl | rfl | rfl | rfl | rfl | rfl | rfl | rfl | rfl <;>
    simp [glyphCell]

theorem newVaultAux_error (prefab : List (V2 × Char)) :
    ∀ (l : List (V2 × Char)) (acc : Map), (∃ e ∈ l, e.2 ∉ vaultGlyphs) →
      ∃ c, c ∉ vaultGlyphs ∧ (∃ p, (p, c) ∈ l) ∧
        newVaultAux prefab l acc = .error (.unknownGlyph c) := by
  intro l
  induction l with
  | nil => intro acc h; simp at h
  | cons e rest ih =>
    intro acc h
    by_cases hev : e.2 ∈ vaultGlyphs
    · obtain ⟨v, hv⟩ := glyphCell_valid hev prefab e.1
      have h2 : ∃ e2 ∈ rest, e2.2 ∉ vaultGlyphs := by
        obtain ⟨e2, he2, hbad⟩ := h
        rcases List.mem_cons.1 he2 with rfl | hmem
        · exact absurd hev hbad
        · exact ⟨e2, hmem, hbad⟩
      cases v with
      | none =>
        obtain ⟨c, hbad, ⟨p, hp⟩, herr⟩ := ih acc h2
        refine ⟨c, hbad, ⟨p, List.mem_cons_of_mem e hp⟩, ?_⟩
        rw [newVaultAux, hv]
        exact herr
      | some cell =>
        obtain ⟨c, hbad, ⟨p, hp⟩, herr⟩ := ih (acc.insert e.1 cell) h2
        refine ⟨c, hbad, ⟨p, List.mem_cons_of_mem e hp⟩, ?_⟩
        rw [newVaultAux, hv]
        exact herr
    · refine ⟨e.2, hev, ⟨e.1, by simp⟩, ?_⟩
      rw [newVaultAux, glyphCell_invalid hev prefab e.1]

theorem newVaultAux_get_untouched (prefab : List (V2 × Char)) {p : V2} :
    ∀ (l : List (V2 × Char)) (acc : Map) (m : Map), (∀ e ∈ l, e.1 ≠ p) →
      newVaultAux prefab l acc = .ok m → m.get p = acc.get p := by
  intro l
  induction l with
  | nil =>
    intro acc m _ h
    obtain rfl : acc = m := by
      rw [newVaultAux] at h
      exact Except.ok.inj h
    rfl
  | cons e rest ih =>
    intro acc m hne h
    rw [newVaultAux] at h
    cases hg : glyphCell prefab e.1 e.2 with
    | error err => rw [hg] at h; cases h
    | ok v =>
      rw [hg] at h
      cases v with
      | none => exact ih acc m (fun e2 h2 => hne e2 (List.mem_cons_of_mem e h2)) h
      | some cell =>
        have := ih (acc.insert e.1 cell) m
          (fun e2 h2 => hne e2 (List.mem_cons_of_mem e h2)) h
        rw [this]
        exact Map.get_insert_ne _ _ _ _ fun hc =>
          hne e (List.mem_cons_self e rest) hc.symm

/-- The cell that `new_vault` stores for each template entry is exactly what
the glyph dispatch produces. -/
theorem newVaultAux_get (prefab : List (V2 × Char)) {p : V2} {ch : Char} :
    ∀ (l : List (V2 × Char)) (acc : Map) (m : Map), (l.map (·.1)).Nodup →
      (p, ch) ∈ l → newVaultAux prefab l acc = .ok m →
      ∃ v, glyphCell prefab p ch = .ok v ∧
        m.get p = (match v with | none => acc.get p | some cell => some cell) := by
  intro l
  induction l with
  | nil => intro acc m _ hmem; cases hmem
  | cons e rest ih =>
    intro acc m hnd hmem h
    simp only [List.map_cons, List.nodup_cons] at hnd
    rw [newVaultAux] at h
    rcases List.mem_cons.1 hmem with heq | hmem2
    · subst heq
      cases hg : glyphCell prefab p ch with
      | error err => rw [hg] at h; cases h
      | ok v =>
        rw [hg] at h
        have huntouched : ∀ e2 ∈ rest, e2.1 ≠ p := by
          intro e2 h2 hc
          exact hnd.1 (hc ▸ List.mem_map.2 ⟨e2, h2, rfl⟩)
        cases v with
        | none =>
          exact ⟨none, rfl, newVaultAux_get_untouched prefab rest acc m huntouched h⟩
        | some cell =>
          refine ⟨some cell, rfl, ?_⟩
          rw [newVaultAux_get_untouched prefab rest _ m huntouched h]
          exact Map.get_insert_self _ _ _
    · cases hg : glyphCell prefab e.1 e.2 with
      | error err => rw [hg] at h; cases h
      | ok v =>
        rw [hg] at h
        have hek : e.1 ≠ p := by
          intro hc
          exact hnd.1 (hc ▸ List.mem_map.2 ⟨(p, ch), hmem2, rfl⟩)
        cases v with
        | none => exact ih acc m hnd.2 hmem2 h
        | some cell =>
          obtain ⟨v2, hv2, hget⟩ := ih (acc.insert e.1 cell) m hnd.2 hmem2 h
          refine ⟨v2, hv2, ?_⟩
          cases v2 with
          | none =>
            rw [hget]
            exact Map.get_insert_ne _ _ _ _ fun hc => hek hc.symm
          | some cell2 => exact hget

end VaultLemmas

section ClaimC7

/-- Claim C7 (amended): a template containing a glyph outside the grammar
makes `new_vault` fail with a parse error naming an offending character; the
error does not include the position. -/
theorem C7_invalid_glyph_fatal (prefab : List (V2 × Char))
    (h : ∃ e ∈ prefab, e.2 ∉ vaultGlyphs) :
    ∃ c, c ∉ vaultGlyphs ∧ (∃ p, (p, c) ∈ prefab) ∧
      new_vault prefab = .error (.unknownGlyph c) :=
  newVaultAux_error prefab prefab Map.new h

/-- Counterexample to claim C7 as stated: moving the offending glyph to a
different position produces the identical error value, so the parse error
reports the character but cannot report the position (`die!` formats only the
glyph). -/
theorem C7_counterexample :
    new_vault [((⟨0, 0⟩ : V2), 'x')] = new_vault [((⟨5, 7⟩ : V2), 'x')] ∧
    new_vault [((⟨0, 0⟩ : V2), 'x')] = .error (.unknownGlyph 'x') := by
  constructor
  · rfl
  · rfl

/-- Witness instantiating `C7_invalid_glyph_fatal` at a concrete template. -/
theorem C7_witness :
    ∃ c, c ∉ vaultGlyphs ∧
      (∃ p, (p, c) ∈ [((⟨0, 0⟩ : V2), '.'), ((⟨1, 0⟩ : V2), 'Q')]) ∧
      new_vault [((⟨0, 0⟩ : V2), '.'), ((⟨1, 0⟩ : V2), 'Q')] =
        .error (.unknownGlyph c) :=
  C7_invalid_glyph_fatal [((⟨0, 0⟩ : V2), '.'), ((⟨1, 0⟩ : V2), 'Q')]
    ⟨((⟨1, 0⟩ : V2), 'Q'), by decide, by decide⟩

end ClaimC7

section ClaimC10

theorem glyphCell_bumper (prefab : List (V2 × Char)) (p : V2) :
    glyphCell prefab p '_' = .ok (some MapCell.new_bumper) := rfl

theorem glyphCell_hash (prefab : List (V2 × Char)) (p : V2) :
    glyphCell prefab p '#' = .ok (some (if isBorderPos prefab p then
      (⟨.Wall, [], false, some .Border⟩ : MapCell)
    else ⟨.Wall, [], true, some .Interior⟩)) := rfl

theorem glyphCell_plus (prefab : List (V2 × Char)) (p : V2) :
    glyphCell prefab p '+' = .ok (some (if isBorderPos prefab p then
      (⟨.Wall, [], true, some .Border⟩ : MapCell)
    else ⟨.Door, [], true, some .Interior⟩)) := rfl

theorem glyphCell_interior_kind (prefab : List (V2 × Char)) (p : V2) {ch : Char}
    (hg : ch ∈ vaultGlyphs) (hs : ch ≠ ' ') (hb : ch ≠ '_')
    (hnb : ¬((ch = '#' ∨ ch = '+') ∧ isBorderPos prefab p = true)) :
    ∃ cell, glyphCell prefab p ch = .ok (some cell) ∧
      cell.vault_kind = some VaultKind.Interior := by
  have hbord : (ch = '#' ∨ ch = '+') → isBorderPos prefab p = false := by
    intro hor
    cases hcase : isBorderPos prefab p with
    | false => rfl
    | true => exact absurd ⟨hor, hcase⟩ hnb
  simp only [vaultGlyphs, List.mem_cons, List.not_mem_nil, or_false] at hg
  rcases hg with rfl | rfl | rfl | rfl | rfl | rfl | rfl | rfl | rfl | rfl | rfl
  · exact absurd rfl hs
  · exact absurd rfl hb
  · exact ⟨_, rfl, rfl⟩
  · refine ⟨⟨.Wall, [], true, some .Interior⟩, ?_, rfl⟩
    rw [glyphCell_hash, hbord (Or.inl rfl)]
    rfl
  · exact ⟨_, rfl, rfl⟩
  · exact ⟨_, rfl, rfl⟩
  · exact ⟨_, rfl, rfl⟩
  · exact ⟨_, rfl, rfl⟩
  · exact ⟨_, rfl, rfl⟩
  · refine ⟨⟨.Door, [], true, some .Interior⟩, ?_, rfl⟩
    rw [glyphCell_plus, hbord (Or.inr rfl)]
    rfl
  · exact ⟨_, rfl, rfl⟩

/-- Claim C10: in a successfully parsed vault, the bumper glyph produces a
cell with no vault role; wall and door glyphs at template-boundary positions
produce `Border` cells, undiggable exactly for the wall glyph; and every other
produced cell carries the `Interior` role. -/
theorem C10_vault_cell_roles (prefab : List (V2 × Char))
    (hnd : (prefab.map (·.1)).Nodup) (m : Map) (hok : new_vault prefab = .ok m)
    (p : V2) (ch : Char) (hmem : (p, ch) ∈ prefab) :
    (ch = '_' → ∃ cell, m.get p = some cell ∧ cell.vault_kind = none ∧
      cell.is_bumper = true) ∧
    ((ch = '#' ∨ ch = '+') → isBorderPos prefab p = true →
      ∃ cell, m.get p = some cell ∧ cell.vault_kind = some VaultKind.Border ∧
        (ch = '#' → cell.can_dig = false) ∧ (ch = '+' → cell.can_dig = true)) ∧
    (ch ∈ vaultGlyphs → ch ≠ ' ' → ch ≠ '_' →
      ¬((ch = '#' ∨ ch = '+') ∧ isBorderPos prefab p = true) →
      ∃ cell, m.get p = some cell ∧ cell.vault_kind = some VaultKind.Interior) := by
  obtain ⟨v, hv, hget⟩ := newVaultAux_get prefab prefab Map.new m hnd hmem hok
  refine ⟨?_, ?_, ?_⟩
  · rintro rfl
    rw [glyphCell_bumper] at hv
    obtain rfl : some MapCell.new_bumper = v := Except.ok.inj hv
    exact ⟨MapCell.new_bumper, hget, rfl, rfl⟩
  · rintro (rfl | rfl) hbord
    · rw [glyphCell_hash, hbord] at hv
      obtain rfl : some (⟨.Wall, [], false, some .Border⟩ : MapCell) = v :=
        Except.ok.inj hv
      exact ⟨_, hget, rfl, fun _ => rfl, fun hc => absurd hc (by decide)⟩
    · rw [glyphCell_plus, hbord] at hv
      obtain rfl : some (⟨.Wall, [], true, some .Border⟩ : MapCell) = v :=
        Except.ok.inj hv
      exact ⟨_, hget, rfl, fun hc => absurd hc (by decide), fun _ => rfl⟩
  · intro hg hs hb hnb
    obtain ⟨cell, hcell, hkind⟩ := glyphCell_interior_kind prefab p hg hs hb hnb
    rw [hcell] at hv
    obtain rfl : some cell = v := Except.ok.inj hv
    exact ⟨cell, hget, hkind⟩

/-- A concrete 3-by-3 vault template: wall ring with a door glyph on the
boundary, ground and a bumper column outside. -/
def prefabC10 : List (V2 × Char) :=
  [(⟨0, 0⟩, '#'), (⟨1, 0⟩, '#'), (⟨2, 0⟩, '#'),
   (⟨0, 1⟩, '#'), (⟨1, 1⟩, '.'), (⟨2, 1⟩, '+'),
   (⟨0, 2⟩, '#'), (⟨1, 2⟩, '#'), (⟨2, 2⟩, '#'),
   (⟨3, 1⟩, '_')]

/-- Witness instantiating `C10_vault_cell_roles` on the concrete template:
the bumper has no vault role, the boundary wall is an undiggable border, the
boundary door glyph a diggable border, and the inner ground cell interior. -/
theorem C10_witness :
    ∃ m, new_vault prefabC10 = .ok m ∧
      (∃ cell, m.get ⟨3, 1⟩ = some cell ∧ cell.vault_kind = none) ∧
      (∃ cell, m.get ⟨0, 0⟩ = some cell ∧ cell.vault_kind = some VaultKind.Border ∧
        cell.can_dig = false) ∧
      (∃ cell, m.get ⟨2, 1⟩ = some cell ∧ cell.vault_kind = some VaultKind.Border ∧
        cell.can_dig = true) ∧
      (∃ cell, m.get ⟨1, 1⟩ = some cell ∧ cell.vault_kind = some VaultKind.Interior) := by
  cases hok : new_vault prefabC10 with
  | error err =>
    exfalso
    have hisok : (new_vault prefabC10).isOk = true := by decide
    rw [hok] at hisok
    cases hisok
  | ok m =>
    refine ⟨m, rfl, ?_, ?_, ?_, ?_⟩
    · obtain ⟨cell, hc, hk, _⟩ := (C10_vault_cell_roles prefabC10 (by decide) m hok
        ⟨3, 1⟩ '_' (by decide)).1 rfl
      exact ⟨cell, hc, hk⟩
    · obtain ⟨cell, hc, hk, hd, _⟩ := (C10_vault_cell_roles prefabC10 (by decide) m hok
        ⟨0, 0⟩ '#' (by decide)).2.1 (Or.inl rfl) (by decide)
      exact ⟨cell, hc, hk, hd rfl⟩
    · obtain ⟨cell, hc, hk, _, hd⟩ := (C10_vault_cell_roles prefabC10 (by decide) m hok
        ⟨2, 1⟩ '+' (by decide)).2.1 (Or.inr rfl) (by decide)
      exact ⟨cell, hc, hk, hd rfl⟩
    · obtain ⟨cell, hc, hk⟩ := (C10_vault_cell_roles prefabC10 (by decide) m hok
        ⟨1, 1⟩ '.' (by decide)).2.2 (by decide) (by decide) (by decide) (by decide)
      exact ⟨cell, hc, hk⟩

end ClaimC10

section ClaimC8

/-- Claim C8 (amended): when the RNG draws a 4-by-3 interior, the room has
exactly 12 Ground cells, all Interior; the Wall ring consists of 18 cells, all
flagged Border; exactly 4 cells (the corners) are undiggable; and the
remaining 14 ring cells are diggable borders. -/
theorem C8_plain_room_4x3 (rng : List Nat) (h1 : rng.headD 0 % 6 = 2)
    (h2 : rng.tail.headD 0 % 6 = 1) :
    (new_plain_room rng).contents.countP
        (fun e => decide (e.2.terrain = Terrain.Ground)) = 12 ∧
    (∀ e ∈ (new_plain_room rng).contents, e.2.terrain = Terrain.Ground →
      e.2.vault_kind = some VaultKind.Interior) ∧
    (new_plain_room rng).contents.countP
        (fun e => decide (e.2.terrain = Terrain.Wall)) = 18 ∧
    (∀ e ∈ (new_plain_room rng).contents, e.2.terrain = Terrain.Wall →
      e.2.vault_kind = some VaultKind.Border) ∧
    (new_plain_room rng).contents.countP (fun e => !e.2.can_dig) = 4 ∧
    (∀ e ∈ (new_plain_room rng).contents, e.2.can_dig = false →
      e.1 ∈ [(⟨-1, -1⟩ : V2), ⟨4, -1⟩, ⟨-1, 3⟩, ⟨4, 3⟩]) ∧
    (new_plain_room rng).contents.countP
        (fun e => e.2.is_border && e.2.can_dig) = 14 := by
  have hm : new_plain_room rng = new_plain_room [2, 1] := by
    unfold new_plain_room
    rw [h1, h2]
    rfl
  rw [hm]
  refine ⟨by decide, by decide, by decide, by decide, by decide, by decide, by decide⟩

/-- Counterexample to claim C8 as stated: with a 4-by-3 interior the number of
Wall cells flagged Border is 18 (the ring including its corners), not
2 times (4+3) = 14. -/
theorem C8_counterexample :
    (new_plain_room [2, 1]).contents.countP (fun e => e.2.is_border) = 18 ∧
    ((new_plain_room [2, 1]).contents.countP (fun e => e.2.is_border) = 14 → False) ∧
    (new_plain_room [2, 1]).contents.countP
      (fun e => decide (e.2.terrain = Terrain.Ground)) = 12 := by
  refine ⟨by decide, by decide, by decide⟩

/-- Witness instantiating `C8_plain_room_4x3` at the concrete draw stream. -/
theorem C8_witness :
    (new_plain_room [2, 1]).contents.countP
        (fun e => decide (e.2.terrain = Terrain.Ground)) = 12 ∧
    (new_plain_room [2, 1]).contents.countP (fun e => !e.2.can_dig) = 4 :=
  ⟨(C8_plain_room_4x3 [2, 1] (by decide) (by decide)).1,
   (C8_plain_room_4x3 [2, 1] (by decide) (by decide)).2.2.2.2.1⟩

end ClaimC8

section ClaimC9

/-- The `join_disjoint_regions` method takes `&mut self` but its body only
reads `self` (through the initial `clone`); translating the method as a
state-passing function makes the final receiver state explicit. -/
def Map.join_disjoint_regions_mut (m : Map) (pick : Pick) (tfuel fuel : Nat)
    (rng : List Nat) (k : Nat) : Option Map × Map :=
  (Map.join_disjoint_regions pick tfuel fuel m rng k, m)

/-- Claim C9: connectivity repair preserves the grid domain — `dig` never
changes the set of defined coordinates (and is a no-op off-map), any map
returned by `find_tunnel` or a successful `join_disjoint_regions` is defined
at exactly the input coordinates, and `join_disjoint_regions` leaves its
receiver untouched even on failure. -/
theorem C9_domain_preservation :
    (∀ (m : Map) (pos q : V2), (m.dig pos).contains q = m.contains q) ∧
    (∀ (m : Map) (pos : V2), m.get pos = none → m.dig pos = m) ∧
    (∀ (m : Map) (p1 p2 : V2) (fuel : Nat) (m2 : Map),
      m.find_tunnel p1 p2 fuel = some m2 → ∀ q, m2.contains q = m.contains q) ∧
    (∀ (pick : Pick) (tfuel fuel : Nat) (m : Map) (rng : List Nat) (k : Nat) (m2 : Map),
      Map.join_disjoint_regions pick tfuel fuel m rng k = some m2 →
      ∀ q, m2.contains q = m.contains q) ∧
    (∀ (m : Map) (pick : Pick) (tfuel fuel : Nat) (rng : List Nat) (k : Nat),
      (m.join_disjoint_regions_mut pick tfuel fuel rng k).2 = m) := by
  refine ⟨Map.dig_contains, ?_, ?_, ?_, ?_⟩
  · intro m pos hnone
    unfold Map.dig
    rw [hnone]
  · exact fun m p1 p2 fuel m2 h => find_tunnel_same_domain h
  · exact fun pick tfuel fuel m rng k m2 h => join_same_domain pick tfuel fuel m rng k m2 h
  · intro m pick tfuel fuel rng k
    rfl

/-- Concrete two-cell walkable map for the C9 witness. -/
def mC9 : Map :=
  ⟨[(⟨0, 0⟩, ⟨.Ground, [], true, none⟩), (⟨1, 0⟩, ⟨.Ground, [], true, none⟩)]⟩

/-- Witness instantiating `C9_domain_preservation`: a concrete dig, a
successful concrete `find_tunnel` run and a successful concrete
`join_disjoint_regions` run, each preserving the domain. -/
theorem C9_witness :
    ((mC9.dig ⟨0, 0⟩).contains ⟨1, 0⟩ = mC9.contains ⟨1, 0⟩) ∧
    (mC9.find_tunnel ⟨0, 0⟩ ⟨1, 0⟩ 2 = some mC9 ∧
      ∀ q, mC9.contains q = mC9.contains q) ∧
    (Map.join_disjoint_regions pickMin 1 1 mC9 [] 0 = some mC9 ∧
      (mC9.join_disjoint_regions_mut pickMin 1 1 [] 0).2 = mC9) := by
  have hft : mC9.find_tunnel ⟨0, 0⟩ ⟨1, 0⟩ 2 = some mC9 := by decide
  have hj : Map.join_disjoint_regions pickMin 1 1 mC9 [] 0 = some mC9 := by decide
  refine ⟨C9_domain_preservation.1 mC9 ⟨0, 0⟩ ⟨1, 0⟩, ⟨hft, ?_⟩, hj,
    C9_domain_preservation.2.2.2.2 mC9 pickMin 1 1 [] 0⟩
  exact fun q => C9_domain_preservation.2.2.1 mC9 ⟨0, 0⟩ ⟨1, 0⟩ 2 mC9 hft q

end ClaimC9

section ClaimC2

/-- Claim C2 (amended): when `join_disjoint_regions` succeeds, decomposing the
walkable cells of the result into hex-connected components and discarding
interior bubbles yields at most one component — and exactly one whenever at
least one walkable cell lies in a non-bubble component. -/
theorem C2_join_connectivity (pick : Pick) (hv : ValidPick pick) (tfuel fuel : Nat)
    (m : Map) (rng : List Nat) (k : Nat) (m2 : Map)
    (hjoin : Map.join_disjoint_regions pick tfuel fuel m rng k = some m2) :
    ((separate_regions pickMin 0 (walkable_floors m2)).1.filter
      (fun r => !m2.is_interior_bubble r)).length ≤ 1 ∧
    ((∃ p ∈ walkable_floors m2,
        m2.is_interior_bubble (canonList (walkable_floors m2) p) = false) →
      ((separate_regions pickMin 0 (walkable_floors m2)).1.filter
        (fun r => !m2.is_interior_bubble r)).length = 1) := by
  have hlt := join_regions_lt_two pick hv tfuel fuel m rng k m2 hjoin
  constructor
  · omega
  · rintro ⟨p, hp, hnb⟩
    have hmem : canonList (walkable_floors m2) p ∈
        (separate_regions pickMin 0 (walkable_floors m2)).1 :=
      (separate_regions_mem pickMin pickMin_valid 0 (walkable_floors m2) _).2 ⟨p, hp, rfl⟩
    have hfmem : canonList (walkable_floors m2) p ∈
        ((separate_regions pickMin 0 (walkable_floors m2)).1.filter
          (fun r => !m2.is_interior_bubble r)) :=
      List.mem_filter.2 ⟨hmem, by rw [hnb]; rfl⟩
    have hpos : 0 < ((separate_regions pickMin 0 (walkable_floors m2)).1.filter
        (fun r => !m2.is_interior_bubble r)).length :=
      List.length_pos.2 (List.ne_nil_of_mem hfmem)
    omega

/-- A single walkable vault-interior cell entirely surrounded by undefined
terrain: a pure interior bubble. -/
def mC2 : Map := ⟨[(⟨0, 0⟩, ⟨.Ground, [], true, some .Interior⟩)]⟩

/-- Counterexample to claim C2 as stated: the map has a walkable cell and
`join_disjoint_regions` succeeds on it, but every walkable component is an
interior bubble, so discarding bubbles yields zero components, not one. -/
theorem C2_counterexample :
    mC2.contents.countP (fun e => e.2.is_walkable) = 1 ∧
    Map.join_disjoint_regions pickMin 1 1 mC2 [] 0 = some mC2 ∧
    ((separate_regions pickMin 0 (walkable_floors mC2)).1.filter
      (fun r => !mC2.is_interior_bubble r)).length = 0 :=
  ⟨by decide, by decide, by decide⟩

/-- A single walkable cell outside any vault, for the C2 witness. -/
def mC2w : Map := ⟨[(⟨0, 0⟩, ⟨.Ground, [], true, none⟩)]⟩

/-- Witness instantiating `C2_join_connectivity` on a concrete successful
join whose walkable cell is not in a bubble. -/
theorem C2_witness :
    Map.join_disjoint_regions pickMin 1 1 mC2w [] 0 = some mC2w ∧
    ((separate_regions pickMin 0 (walkable_floors mC2w)).1.filter
      (fun r => !mC2w.is_interior_bubble r)).length = 1 := by
  have hj : Map.join_disjoint_regions pickMin 1 1 mC2w [] 0 = some mC2w := by decide
  exact ⟨hj, (C2_join_connectivity pickMin pickMin_valid 1 1 mC2w [] 0 mC2w hj).2
    ⟨⟨0, 0⟩, by decide, by decide⟩⟩

end ClaimC2

section ClaimC5

/-- Claim C5: `find_positions` (and the entrance, exit and open-ground queries
built on it) returns exactly the satisfying positions sorted by `(x, then y)`,
independently of the hash iteration order; and `separate_regions` returns the
hex-connected components of its input, each component sorted and the component
list sorted, as a pure function of the input set, independently of the pick
oracle. -/
theorem C5_query_determinism :
    (∀ (m : Map) (pred : V2 → MapCell → Bool),
      (m.find_positions pred).Sorted keyLe) ∧
    (∀ (m : Map) (pred : V2 → MapCell → Bool), m.NodupKeys →
      ∀ q, q ∈ m.find_positions pred ↔ ∃ c, m.get q = some c ∧ pred q c = true) ∧
    (∀ (m1 m2 : Map) (pred : V2 → MapCell → Bool), m1.contents.Perm m2.contents →
      m1.find_positions pred = m2.find_positions pred) ∧
    (∀ m1 m2 : Map, m1.contents.Perm m2.contents →
      m1.entrances = m2.entrances ∧ m1.exits = m2.exits ∧
        m1.open_ground = m2.open_ground) ∧
    (∀ pick1 pick2 : Pick, ValidPick pick1 → ValidPick pick2 →
      ∀ (n1 n2 : Nat) (s : Finset V2),
        (separate_regions pick1 n1 s).1 = (separate_regions pick2 n2 s).1) ∧
    (∀ (pick : Pick) (n : Nat) (s : Finset V2),
      (separate_regions pick n s).1.Sorted listLe) ∧
    (∀ pick : Pick, ValidPick pick → ∀ (n : Nat) (s : Finset V2) (l : List V2),
      l ∈ (separate_regions pick n s).1 ↔ ∃ q ∈ s, l = canonList s q) ∧
    (∀ (s : Finset V2) (q : V2), q ∈ s →
      (canonList s q).Sorted keyLe ∧ ∀ r, r ∈ canonList s q ↔ reaches s q r) := by
  refine ⟨?_, ?_, ?_, ?_, ?_, ?_, ?_, ?_⟩
  · exact fun m pred => Map.find_positions_sorted m pred
  · exact fun m pred hnd q => Map.find_positions_mem hnd pred q
  · exact fun m1 m2 pred hperm => Map.find_positions_perm_eq hperm pred
  · intro m1 m2 hperm
    exact ⟨Map.find_positions_perm_eq hperm _, Map.find_positions_perm_eq hperm _,
      Map.find_positions_perm_eq hperm _⟩
  · exact fun pick1 pick2 hv1 hv2 n1 n2 s =>
      separate_regions_pick_eq pick1 pick2 hv1 hv2 n1 n2 s
  · exact fun pick n s => separate_regions_sorted pick n s
  · exact fun pick hv n s l => separate_regions_mem pick hv n s l
  · exact fun s q hq => ⟨canonList_sorted s q, fun r => mem_canonList hq⟩

/-- Two listings of the same grid contents in different hash orders. -/
def mC5a : Map :=
  ⟨[(⟨1, 0⟩, ⟨.Entrance, [], true, none⟩), (⟨0, 0⟩, ⟨.Ground, [], true, none⟩)]⟩

def mC5b : Map :=
  ⟨[(⟨0, 0⟩, ⟨.Ground, [], true, none⟩), (⟨1, 0⟩, ⟨.Entrance, [], true, none⟩)]⟩

/-- Witness instantiating `C5_query_determinism` on concrete reordered grids
and a concrete point set with two different oracle counters. -/
theorem C5_witness :
    mC5a.entrances = mC5b.entrances ∧
    (separate_regions pickMin 0 ({⟨0, 0⟩, ⟨0, 1⟩, ⟨5, 5⟩} : Finset V2)).1 =
      (separate_regions pickMin 7 ({⟨0, 0⟩, ⟨0, 1⟩, ⟨5, 5⟩} : Finset V2)).1 ∧
    (⟨0, 1⟩ : V2) ∈ canonList ({⟨0, 0⟩, ⟨0, 1⟩, ⟨5, 5⟩} : Finset V2) ⟨0, 0⟩ := by
  refine ⟨(C5_query_determinism.2.2.2.1 mC5a mC5b (by decide)).1,
    C5_query_determinism.2.2.2.2.1 pickMin pickMin pickMin_valid pickMin_valid 0 7 _, ?_⟩
  refine ((C5_query_determinism.2.2.2.2.2.2.2 _ ⟨0, 0⟩ (by decide)).2 ⟨0, 1⟩).2 ?_
  exact Relation.ReflTransGen.single ⟨by decide, by decide⟩

end ClaimC5

section WorldgenModel

/-- Unambiguous location in the game world (`Location` with depth, as used by
`worldgen.rs`; the 3-field version is not under src and is modelled from the
spec's sector/portal data model). -/
structure Location where
  x : Int
  y : Int
  z : Int
deriving DecidableEq, Repr

def Location.addv (l : Location) (v : V2) : Location := ⟨l.x + v.x, l.y + v.y, l.z⟩

/-- Modelled from the spec: the PRNG seeded from the world seed and threaded
explicitly through every call.  The concrete rand-crate generator is not under
src; any deterministic mixing function represents it. -/
structure RngSt where
  seed : Nat
  ctr : Nat
deriving DecidableEq, Repr

def rngNext (r : RngSt) : Nat × RngSt :=
  ((r.seed * 1103515245 + r.ctr * 12345 + 12345) % 4294967296,
   ⟨r.seed, r.ctr + 1⟩)

/-- Pointwise-updatable terrain table (`HashMap<Location, Terrain>` viewed as
its lookup function). -/
def tinsert (t : Location → Option Terrain) (k : Location) (v : Terrain) :
    Location → Option Terrain :=
  fun q => if q = k then some v else t q

def pinsert (t : Location → Option Location) (k : Location) (v : Location) :
    Location → Option Location :=
  fun q => if q = k then some v else t q

/-- Extending the terrain table with a batch of entries in some hash iteration
order (`terrain.extend` over the parsed bitmap prefab). -/
def extendTerrain (t : Location → Option Terrain) (l : List (Location × Terrain)) :
    Location → Option Terrain :=
  l.foldl (fun acc e => tinsert acc e.1 e.2) t

/-- Modelled from the spec: the color-keyed overworld bitmap
(`assets/overland.png`, not under src) parses to a fixed coordinate-to-terrain
table with distinct coordinates; the bottom metadata row is already
stripped. -/
def overlandList : List (Location × Terrain) :=
  [(⟨0, 0, 0⟩, .Ground), (⟨1, 0, 0⟩, .Water), (⟨2, 0, 0⟩, .Grass),
   (⟨0, 1, 0⟩, .Tree), (⟨1, 1, 0⟩, .Ground), (⟨2, 1, 0⟩, .Rock)]

def caveLoc : Location := ⟨40, 12, 0⟩

/-- The overworld cave entrance carving of `Worldgen::new`: the downbound
enclosure rocks, ground at the entrance, then the Gate and the visual Empty
cell. -/
def caveCarve (t : Location → Option Terrain) : Location → Option Terrain :=
  let t1 := [((1 : Int), (0 : Int)), (0, 1), (2, 1), (1, 2), (2, 2)].foldl
    (fun acc v => tinsert acc (caveLoc.addv ⟨v.1, v.2⟩) Terrain.Rock) t
  tinsert (tinsert (tinsert (tinsert t1 caveLoc .Ground)
    (caveLoc.addv ⟨1, 1⟩) .Ground) caveLoc .Gate) (caveLoc.addv ⟨1, 1⟩) .Empty

/-- Full generator state threaded through the per-depth loop of
`Worldgen::new`. -/
structure GenState where
  terrain : Location → Option Terrain
  portals : Location → Option Location
  spawns : List (Location × String × Nat)
  rng : RngSt
  cave : Location

/-- Result of the sector-digging phase of one depth: updated state plus the
spawn-candidate set and the two required stair locations. -/
structure DigOut where
  st : GenState
  spawn_region : List Location
  up : Location
  down : Location

/-- Modelled from the spec: the rectangular sector domain at one depth. -/
def sectorDomain (d : Nat) : List Location :=
  (intRange 0 4).foldr (fun y acc =>
    ((intRange 0 4).map (fun x => (⟨x, y, (d : Int)⟩ : Location))) ++ acc) []

/-- Modelled from the spec: the external cave-shaping driver (`mapgen::Caves`,
not under src) invoked through the chamber/stairs callback protocol of
`SectorDigger`.  It draws from the explicitly threaded RNG only: digs a
chamber of ground cells (entering the spawn region), then places the up and
down stairs, each stamped as Gate with the stairs excluded from the spawn
region and the cell in front of the down stairs carved Empty. -/
def digPhase (d : Nat) (st : GenState) : DigOut :=
  let dom := sectorDomain d
  let n1 := rngNext st.rng
  let chamber := dom.take (4 + n1.1 % 8)
  let t1 := chamber.foldl (fun t loc => tinsert t loc Terrain.Ground) st.terrain
  let n2 := rngNext n1.2
  let up := dom.getD (n2.1 % dom.length) ⟨0, 0, 0⟩
  let t2 := tinsert t1 up Terrain.Gate
  let sr2 := chamber.filter (fun l => decide (l ≠ up))
  let n3 := rngNext n2.2
  let down := dom.getD (n3.1 % dom.length) ⟨0, 0, 0⟩
  let t3 := tinsert (tinsert t2 down Terrain.Gate) (down.addv ⟨1, 1⟩) Terrain.Empty
  let sr3 := (sr2.filter (fun l => decide (l ≠ down))).filter
    (fun l => decide (l ≠ down.addv ⟨1, 1⟩))
  ⟨{ st with terrain := t3, rng := n3.2 }, sr3, up, down⟩

/-- Modelled from the spec: the locations the entrance-safety Dijkstra sweep
can report within the fixed radius — a hex ball around the up stairs.  Its
`HashMap` iteration order is what the reorder oracle permutes. -/
def ballList (c : Location) (r : Nat) : List Location :=
  (intRange (-(r : Int)) ((r : Int) + 1)).foldr (fun dx acc =>
    ((intRange (-(r : Int)) ((r : Int) + 1)).filterMap (fun dy =>
      if hex_dist ⟨dx, dy⟩ ≤ (r : Int) then some (c.addv ⟨dx, dy⟩) else none)) ++ acc) []

/-- Removing a batch of locations from the spawn-candidate set in some hash
iteration order (`clear_spawns_near_entrance`). -/
def removeAll (sr : List Location) (l : List Location) : List Location :=
  l.foldl (fun s x => s.filter (fun y => decide (y ≠ x))) sr

/-- Total order on locations for the `BTreeSet` iteration of the spawn
region. -/
def locLe (a b : Location) : Prop :=
  a.x < b.x ∨ (a.x = b.x ∧ (a.y < b.y ∨ (a.y = b.y ∧ a.z ≤ b.z)))

instance : DecidableRel locLe := fun a b => by
  unfold locLe
  infer_instance

def sortLocs (l : List Location) : List Location := l.insertionSort locLe

/-- One form draw per spawned entity, consuming the shared RNG. -/
def drawSpawns (r : RngSt) (locs : List Location) (kind : String) :
    RngSt × List (Location × String × Nat) :=
  locs.foldl (fun acc loc =>
    ((rngNext acc.1).2, acc.2 ++ [(loc, kind, (rngNext acc.1).1 % 5)])) (r, [])

/-- Tail of one depth iteration after the entrance-safety removal: sample the
spawn quota from the ordered spawn region (half items, half mobs), then link
the consecutive depths with the paired one-way stair portals, offset so the
stair art aligns. -/
def stepAfterRemove (o : DigOut) (sr : List Location) : GenState :=
  let srs := sortLocs sr
  let n4 := rngNext o.st.rng
  let rot := n4.1 % (srs.length + 1)
  let spawnLocs := (srs.drop rot ++ srs.take rot).take 20
  let items := drawSpawns n4.2 (spawnLocs.take (spawnLocs.length / 2)) "item"
  let mobs := drawSpawns items.1 (spawnLocs.drop (spawnLocs.length / 2)) "mob"
  { terrain := o.st.terrain,
    portals := pinsert (pinsert o.st.portals o.st.cave (o.up.addv ⟨1, 1⟩)) o.up
      (o.st.cave.addv ⟨-1, -1⟩),
    spawns := o.st.spawns ++ items.2 ++ mobs.2,
    rng := mobs.1,
    cave := o.down }

/-- One depth of the world-generation loop; `reorder` is the hash iteration
order of the Dijkstra weights table consumed by
`clear_spawns_near_entrance`. -/
def stepDepth (reorder : List Location → List Location) (d : Nat) (st : GenState) :
    GenState :=
  stepAfterRemove (digPhase d st)
    (removeAll (digPhase d st).spawn_region (reorder (ballList (digPhase d st).up 12)))

/-- Static generated world (`Worldgen` in `worldgen.rs`). -/
structure Worldgen where
  seed : Nat
  terrain : Location → Option Terrain
  portals : Location → Option Location
  spawns : List (Location × String × Nat)
  player_entry : Location

def initState (seed : Nat) (t0 : Location → Option Terrain) : GenState :=
  { terrain := caveCarve t0, portals := fun _ => none, spawns := [],
    rng := ⟨seed, 0⟩, cave := caveLoc }

def buildWorld (seed : Nat) (reorder : Nat → List Location → List Location)
    (st0 : GenState) : Worldgen :=
  ⟨seed,
   ((List.range 10).foldl (fun st i => stepDepth (reorder (i + 1)) (i + 1) st) st0).terrain,
   ((List.range 10).foldl (fun st i => stepDepth (reorder (i + 1)) (i + 1) st) st0).portals,
   ((List.range 10).foldl (fun st i => stepDepth (reorder (i + 1)) (i + 1) st) st0).spawns,
   ⟨25, 0, 0⟩⟩

/-- Construction of the static world from a seed (`Worldgen::new`), modelled
from the spec where the callees are not under src.  `prefabOrder` is the hash
iteration order in which the parsed overworld bitmap entries are folded into
the terrain table, and `reorder` the per-depth hash iteration order of the
Dijkstra weights; both stand for the nondeterminism of the hash-based
containers, everything else is a pure function of the seed. -/
def Worldgen.new (seed : Nat) (prefabOrder : List (Location × Terrain))
    (reorder : Nat → List Location → List Location) : Worldgen :=
  buildWorld seed reorder (initState seed (extendTerrain (fun _ => none) prefabOrder))

end WorldgenModel

section ClaimC1

theorem loc_assoc_mem_find {q : Location} {v : Terrain} :
    ∀ l : List (Location × Terrain), (l.map (·.1)).Nodup → (q, v) ∈ l →
      l.find? (fun e => decide (e.1 = q)) = some (q, v) := by
  intro l
  induction l with
  | nil => intro _ h; cases h
  | cons e rest ih =>
    intro hnd hmem
    simp only [List.map_cons, List.nodup_cons] at hnd
    rcases List.mem_cons.1 hmem with heq | hmem2
    · subst heq
      simp [List.find?]
    · have hne : e.1 ≠ q := by
        intro hc
        exact hnd.1 (hc ▸ List.mem_map.2 ⟨(q, v), hmem2, rfl⟩)
      simp only [List.find?, decide_eq_false hne, Bool.false_eq_true]
      exact ih hnd.2 hmem2

theorem loc_assoc_find_perm {l1 l2 : List (Location × Terrain)} (h : l1.Perm l2)
    (hnd : (l1.map (·.1)).Nodup) (q : Location) :
    l1.find? (fun e => decide (e.1 = q)) = l2.find? (fun e => decide (e.1 = q)) := by
  have hnd2 : (l2.map (·.1)).Nodup := ((h.map (·.1)).nodup_iff).1 hnd
  cases hf : l1.find? (fun e => decide (e.1 = q)) with
  | none =>
    have hall := List.find?_eq_none.1 hf
    symm
    apply List.find?_eq_none.2
    intro e he
    exact hall e (h.mem_iff.2 he)
  | some e =>
    have hkey : e.1 = q := by simpa using List.find?_some hf
    have hmem : e ∈ l1 := List.mem_of_find?_eq_some hf
    have he2 : e = (q, e.2) := Prod.ext hkey rfl
    rw [he2] at hmem ⊢
    exact (loc_assoc_mem_find l2 hnd2 (h.mem_iff.1 hmem)).symm

theorem extendTerrain_eq :
    ∀ (l : List (Location × Terrain)), (l.map (·.1)).Nodup →
      ∀ (t : Location → Option Terrain) (q : Location),
        extendTerrain t l q = (match l.find? (fun e => decide (e.1 = q)) with
          | some e => some e.2
          | none => t q) := by
  intro l
  induction l with
  | nil => intro _ t q; rfl
  | cons e rest ih =>
    intro hnd t q
    simp only [List.map_cons, List.nodup_cons] at hnd
    show extendTerrain (tinsert t e.1 e.2) rest q = _
    rw [ih hnd.2 (tinsert t e.1 e.2) q]
    by_cases hk : e.1 = q
    · have hrest : rest.find? (fun e2 => decide (e2.1 = q)) = none := by
        apply List.find?_eq_none.2
        intro e2 he2
        simp only [decide_eq_true_eq]
        intro hc
        exact hnd.1 ((hk.trans hc.symm) ▸ List.mem_map.2 ⟨e2, he2, rfl⟩)
      rw [hrest]
      simp only [List.find?, decide_eq_true hk]
      unfold tinsert
      rw [if_pos hk.symm]
    · simp only [List.find?, decide_eq_false hk, Bool.false_eq_true]
      cases hrest : rest.find? (fun e2 => decide (e2.1 = q)) with
      | some e2 => rfl
      | none =>
        unfold tinsert
        rw [if_neg (fun hc => hk hc.symm)]

/-- Folding the same batch of distinct-key entries into the terrain table in
any two hash iteration orders produces the same table. -/
theorem extendTerrain_perm {l1 l2 : List (Location × Terrain)} (h : l1.Perm l2)
    (hnd : (l1.map (·.1)).Nodup) (t : Location → Option Terrain) :
    extendTerrain t l1 = extendTerrain t l2 := by
  funext q
  rw [extendTerrain_eq l1 hnd t q,
    extendTerrain_eq l2 (((h.map (·.1)).nodup_iff).1 hnd) t q,
    loc_assoc_find_perm h hnd q]

theorem removeAll_eq_filter :
    ∀ (l : List Location) (sr : List Location),
      removeAll sr l = sr.filter (fun y => decide (y ∉ l)) := by
  intro l
  induction l with
  | nil =>
    intro sr
    show sr = sr.filter fun y => decide (y ∉ ([] : List Location))
    symm
    apply List.filter_eq_self.2
    intro y _
    simp
  | cons x xs ih =>
    intro sr
    show removeAll (sr.filter fun y => decide (y ≠ x)) xs = _
    rw [ih]
    rw [List.filter_filter]
    apply List.filter_congr
    intro y _
    simp only [List.mem_cons, decide_not, Bool.and_eq_true, Bool.not_eq_true,
      decide_eq_false_iff_not, decide_eq_true_eq]
    cases hyx : decide (y = x) <;> cases hmem : decide (y ∈ xs) <;>
      simp_all

/-- Removing the same batch of locations in any two hash iteration orders
leaves the same spawn-candidate set. -/
theorem removeAll_congr {l1 l2 : List Location} (h : l1.Perm l2) (sr : List Location) :
    removeAll sr l1 = removeAll sr l2 := by
  rw [removeAll_eq_filter, removeAll_eq_filter]
  apply List.filter_congr
  intro y _
  simp only [decide_not]
  rw [decide_eq_decide.2 h.mem_iff]

/-- One generation depth is insensitive to the hash iteration order of the
entrance-safety sweep. -/
theorem stepDepth_congr (r1 r2 : List Location → List Location)
    (h1 : ∀ l, (r1 l).Perm l) (h2 : ∀ l, (r2 l).Perm l) (d : Nat) (st : GenState) :
    stepDepth r1 d st = stepDepth r2 d st := by
  unfold stepDepth
  rw [show removeAll (digPhase d st).spawn_region (r1 (ballList (digPhase d st).up 12)) =
      removeAll (digPhase d st).spawn_region (r2 (ballList (digPhase d st).up 12)) from
    ((removeAll_congr (h1 _) _).trans (removeAll_congr (h2 _) _).symm)]

theorem foldl_congr_fun {α β : Type} (f g : α → β → α) (h : ∀ a b, f a b = g a b) :
    ∀ (l : List β) (a : α), l.foldl f a = l.foldl g a := by
  intro l
  induction l with
  | nil => intro a; rfl
  | cons b rest ih =>
    intro a
    rw [List.foldl_cons, List.foldl_cons, h a b, ih]

/-- Claim C1: for every fixed seed, two worlds constructed independently — in
particular under any two hash iteration orders of the bitmap prefab table and
of the per-depth Dijkstra weights tables — have identical terrain tables,
portal tables and player-entry locations.  All randomness flows through the
single explicitly threaded RNG, which is a function of the seed alone. -/
theorem C1_worldgen_determinism (seed : Nat) (p1 p2 : List (Location × Terrain))
    (r1 r2 : Nat → List Location → List Location)
    (hp1 : p1.Perm overlandList) (hp2 : p2.Perm overlandList)
    (hr1 : ∀ d l, (r1 d l).Perm l) (hr2 : ∀ d l, (r2 d l).Perm l) :
    (Worldgen.new seed p1 r1).terrain = (Worldgen.new seed p2 r2).terrain ∧
    (Worldgen.new seed p1 r1).portals = (Worldgen.new seed p2 r2).portals ∧
    (Worldgen.new seed p1 r1).player_entry = (Worldgen.new seed p2 r2).player_entry := by
  have hndov : (overlandList.map (·.1)).Nodup := by decide
  have hnd1 : (p1.map (·.1)).Nodup := ((hp1.map (·.1)).nodup_iff).2 hndov
  have hext : extendTerrain (fun _ => none) p1 = extendTerrain (fun _ => none) p2 :=
    extendTerrain_perm (hp1.trans hp2.symm) hnd1 _
  have hfold : ∀ st0 : GenState,
      (List.range 10).foldl (fun st i => stepDepth (r1 (i + 1)) (i + 1) st) st0 =
      (List.range 10).foldl (fun st i => stepDepth (r2 (i + 1)) (i + 1) st) st0 := by
    intro st0
    exact foldl_congr_fun _ _
      (fun st i => stepDepth_congr (r1 (i + 1)) (r2 (i + 1)) (hr1 (i + 1)) (hr2 (i + 1))
        i.succ st) (List.range 10) st0
  unfold Worldgen.new buildWorld
  rw [hext, hfold]
  exact ⟨rfl, rfl, rfl⟩

/-- Witness instantiating `C1_worldgen_determinism` at a concrete seed with
the identity iteration order against the reversed iteration order. -/
theorem C1_witness :
    (Worldgen.new 7 overlandList (fun _ l => l)).terrain =
      (Worldgen.new 7 overlandList.reverse (fun _ l => l.reverse)).terrain ∧
    (Worldgen.new 7 overlandList (fun _ l => l)).portals =
      (Worldgen.new 7 overlandList.reverse (fun _ l => l.reverse)).portals ∧
    (Worldgen.new 7 overlandList (fun _ l => l)).player_entry =
      (Worldgen.new 7 overlandList.reverse (fun _ l => l.reverse)).player_entry :=
  C1_worldgen_determinism 7 overlandList overlandList.reverse (fun _ l => l)
    (fun _ l => l.reverse) (List.Perm.refl _) (List.reverse_perm _)
    (fun _ l => List.Perm.refl l) (fun _ l => List.reverse_perm l)

end ClaimC1

end Magog
